import Mathlib

/-!
# lcfs (fs-ll): directory entry store and namespace operations

A shallow embedding of `src/fs-ll/dir.c` and of the namespace and write paths of
`src/fs-ll/fops.c`, followed by theorems about them.

Conventions of the embedding.

* A C string (`const char *`) is the `String` of its bytes before the terminating NUL:
  `strlen` is `String.length` and `strcmp(a, b) == 0` is `a = b`.
* `ino_t`, `mode_t`, `off_t >= 0` and `size_t` values are `Nat`.  `nlink_t` arithmetic is
  written with an explicit `% 2 ^ 64`.
* A pointer to an inode is the number under which the inode sits in the inode table, so
  that two pointers to the same object are the same key and a store through one is seen
  through the other.
* A singly linked list (`di_next`) is a `List`, head first.
* Constants of headers that are not part of the sources at hand (`DFS_INVALID_INODE`,
  `DFS_BLOCK_SIZE`) are parameters.
* Name lengths fit the `int` they are held in.  Locks, time stamps
  (`dfs_updateInodeTimes`) and the trace output (`dfs_displayEntry`, `dfs_reportError`)
  are not represented.
-/

namespace Lcfs

/-! ## Constants of the system headers -/

/-- Mask of the file type bits of a mode, `S_IFMT` of `sys/stat.h`. -/
def S_IFMT : Nat := 0o170000

/-- Type bits of a directory, `S_IFDIR`. -/
def S_IFDIR : Nat := 0o040000

/-- Type bits of a regular file, `S_IFREG`. -/
def S_IFREG : Nat := 0o100000

/-- Type bits of a symbolic link, `S_IFLNK`. -/
def S_IFLNK : Nat := 0o120000

/-- The test `S_ISDIR(mode)`. -/
def S_ISDIR (mode : Nat) : Bool := (mode &&& S_IFMT) == S_IFDIR

/-- The test `S_ISREG(mode)`. -/
def S_ISREG (mode : Nat) : Bool := (mode &&& S_IFMT) == S_IFREG

/-- Error number `ENOENT` of `errno.h` (Linux). -/
def ENOENT : Nat := 2

/-- Error number `EEXIST` of `errno.h` (Linux). -/
def EEXIST : Nat := 17

/-- Error number `ESTALE` of `errno.h` (Linux). -/
def ESTALE : Nat := 116

/-- Number of values of `nlink_t` (an unsigned 64 bit integer on LP64 Linux). -/
def NLINK_MOD : Nat := 2 ^ 64

/-- The statement `st_nlink++` on an `nlink_t`. -/
def nlink_inc (n : Nat) : Nat := (n + 1) % NLINK_MOD

/-- The statement `st_nlink--` on an `nlink_t`: a count of zero wraps around. -/
def nlink_dec (n : Nat) : Nat := (n + (NLINK_MOD - 1)) % NLINK_MOD

/-! ## Data model -/

/-- A directory entry, `struct dirent`: the fields `dir.c` reads and writes.  The link
`di_next` is the tail of the list the entry sits in. -/
structure dirent where
  /-- Inode number the name is bound to. -/
  di_ino : Nat
  /-- Name of the entry (the C string held in the buffer `di_name`). -/
  di_name : String
  /-- Recorded length of the name. -/
  di_size : Nat
  /-- File type bits. -/
  di_mode : Nat
deriving DecidableEq, Repr

/-- An inode, `struct inode`: the fields `dir.c` and `fops.c` read and write
(`i_stat.st_ino`, `i_stat.st_mode`, `i_stat.st_nlink`, `i_stat.st_size`, `i_dirent`,
`i_removed`).  Time stamps, owner and the page chain are left out. -/
structure inode where
  /-- Inode number, `i_stat.st_ino`. -/
  st_ino : Nat
  /-- Mode, `i_stat.st_mode`. -/
  st_mode : Nat
  /-- Link count, `i_stat.st_nlink`. -/
  st_nlink : Nat
  /-- Recorded size, `i_stat.st_size`. -/
  st_size : Nat
  /-- Head of the entry list of a directory. -/
  i_dirent : List dirent
  /-- Flag set when the inode is logically removed. -/
  i_removed : Bool
deriving DecidableEq, Repr

/-! ## dir.c -/

/-- Loop of `dfs_dirLookup` (dir.c:14-22) from the entry `dirent` on. -/
def dirLookupFrom (DFS_INVALID_INODE : Nat) (name : String) : List dirent → Nat
  | [] => DFS_INVALID_INODE
  | dirent :: di_next =>
    if name.length = dirent.di_size ∧ name = dirent.di_name then dirent.di_ino
    else dirLookupFrom DFS_INVALID_INODE name di_next

/-- Function `dfs_dirLookup` (dir.c:6-23).  The argument `fs` of the source is not used
by its body and is left out; `assert(S_ISDIR(...))` is a precondition on the caller. -/
def dfs_dirLookup (DFS_INVALID_INODE : Nat) (dir : inode) (name : String) : Nat :=
  dirLookupFrom DFS_INVALID_INODE name dir.i_dirent

/-- Function `dfs_dirAdd` (dir.c:26-40): a new entry is linked in at the head. -/
def dfs_dirAdd (dir : inode) (ino : Nat) (mode : Nat) (name : String) : inode :=
  { dir with
    i_dirent :=
      { di_ino := ino, di_name := name, di_size := name.length,
        di_mode := mode &&& S_IFMT } :: dir.i_dirent }

/-- Function `dfs_dirCopy` (dir.c:43-53): `inode` is the destination, `dir` the source,
two different objects; every entry of the source is added to the destination in turn. -/
def dfs_dirCopy (inode : inode) (dir : Lcfs.inode) : Lcfs.inode :=
  dir.i_dirent.foldl
    (fun acc dirent => dfs_dirAdd acc dirent.di_ino dirent.di_mode dirent.di_name) inode

/-- Loop of `dfs_dirRemove` (dir.c:64-78): the list from `dirent` on, with the first
matching entry unlinked. -/
def dirRemoveFrom (name : String) : List dirent → List dirent
  | [] => []
  | dirent :: di_next =>
    if name.length = dirent.di_size ∧ name = dirent.di_name then di_next
    else dirent :: dirRemoveFrom name di_next

/-- Function `dfs_dirRemove` (dir.c:57-79). -/
def dfs_dirRemove (dir : inode) (name : String) : inode :=
  { dir with i_dirent := dirRemoveFrom name dir.i_dirent }

/-- Loop of `dfs_dirRename` (dir.c:88-102): the first entry bound to `ino` gets the new
name and its length.  In both branches of the test on `di_size` the buffer ends up
holding `name` followed by NUL (entries made by `dfs_dirAdd` and `dfs_dirRename` own a
buffer of at least `di_size + 1` bytes). -/
def dirRenameFrom (ino : Nat) (name : String) : List dirent → List dirent
  | [] => []
  | dirent :: di_next =>
    if dirent.di_ino = ino then
      { dirent with di_name := name, di_size := name.length } :: di_next
    else dirent :: dirRenameFrom ino name di_next

/-- Function `dfs_dirRename` (dir.c:82-103). -/
def dfs_dirRename (dir : inode) (ino : Nat) (name : String) : inode :=
  { dir with i_dirent := dirRenameFrom ino name dir.i_dirent }

/-- The entry `dfs_dirCopy` makes of a source entry: `dfs_dirAdd` called with its inode
number, mode and name. -/
def copiedEntry (e : dirent) : dirent :=
  { di_ino := e.di_ino, di_name := e.di_name, di_size := e.di_name.length,
    di_mode := e.di_mode &&& S_IFMT }

/-! ## Inode table -/

/-- The inode table of a layer, `struct fs`: the inode found under each number, if any.
External handles are the inode numbers themselves (one layer). -/
abbrev fs := Nat → Option inode

/-- Modelled from the spec: function `dfs_getInode` (declared in includes.h, body not in
the sources at hand), the `resolve(layer, local_ino, ...) -> locked_inode | NOT_FOUND`
of the inode table: the inode present under the number, or `none` for NOT_FOUND.  Locks
are not represented, and copy-up, which duplicates the metadata, yields the same
fields. -/
def dfs_getInode (s : fs) (ino : Nat) : Option inode := s ino

/-- A store `*p = v` through the inode pointer `p`. -/
def fs_store (s : fs) (p : Nat) (v : inode) : fs :=
  fun k => if k = p then some v else s k

/-- An update `*p = f(*p)` through the inode pointer `p`. -/
def fs_modify (s : fs) (p : Nat) (f : inode → inode) : fs :=
  match s p with
  | some v => fs_store s p (f v)
  | none => s

/-- Modelled from the spec: function `dfs_inodeInit` (declared in includes.h, body not in
the sources at hand), the `init(layer, mode, ...) -> new_locked_inode` of the inode
table: a fresh inode under the number `newino` the allocator hands out, with an empty
entry list, size zero and the link count seeded per type (two for a directory, one
otherwise).  It returns the new inode and the table holding it. -/
def dfs_inodeInit (s : fs) (newino : Nat) (mode : Nat) : inode × fs :=
  let inode : inode :=
    { st_ino := newino, st_mode := mode, st_nlink := if S_ISDIR mode then 2 else 1,
      st_size := 0, i_dirent := [], i_removed := false }
  (inode, fs_store s newino inode)

/-! ## fops.c: namespace operations

Each operation returns `none` when an `assert` of the source fails (the process aborts)
and otherwise `some (err, s)`: the error number it returns or replies with (zero for
success) and the inode table it leaves. -/

/-- Function `create` (fops.c:13-44); `newino` is the number `dfs_inodeInit` allocates. -/
def create (s : fs) (newino : Nat) (parent : Nat) (name : String) (mode : Nat) :
    Option (Nat × fs) :=
  match dfs_getInode s parent with
  | none => some (ENOENT, s)
  | some dir =>
    if !S_ISDIR dir.st_mode then none
    else
      let (inode, s1) := dfs_inodeInit s newino mode
      let ino := inode.st_ino
      let s2 := fs_modify s1 parent (fun d => dfs_dirAdd d ino mode name)
      let s3 :=
        if S_ISDIR mode then
          fs_modify s2 parent (fun d => { d with st_nlink := nlink_inc d.st_nlink })
        else s2
      some (0, s3)

/-- Function `dremove` (fops.c:47-82); `dir` points to the parent directory. -/
def dremove (s : fs) (dir : Nat) (name : String) (ino : Nat) (rmdir : Bool) :
    Option (Nat × fs) :=
  match dfs_getInode s ino with
  | none => some (ESTALE, s)
  | some inode =>
    if inode.st_nlink = 0 then none
    else if rmdir then
      if inode.st_nlink > 2 then some (EEXIST, s)
      else
        let s1 := fs_modify s dir (fun d => { d with st_nlink := nlink_dec d.st_nlink })
        let s2 := fs_modify s1 ino (fun i => { i with i_removed := true })
        some (0, fs_modify s2 dir (fun d => dfs_dirRemove d name))
    else
      let s1 := fs_modify s ino (fun i => { i with st_nlink := nlink_dec i.st_nlink })
      let s2 := fs_modify s1 ino
        (fun i => if i.st_nlink = 0 then { i with i_removed := true } else i)
      some (0, fs_modify s2 dir (fun d => dfs_dirRemove d name))

/-- Function `dfs_remove` (fops.c:85-113), called by `dfs_unlink` with `rmdir = false`
and by `dfs_rmdir` with `rmdir = true`. -/
def dfs_remove (DFS_INVALID_INODE : Nat) (s : fs) (parent : Nat) (name : String)
    (rmdir : Bool) : Option (Nat × fs) :=
  match dfs_getInode s parent with
  | none => some (ENOENT, s)
  | some dir =>
    if !S_ISDIR dir.st_mode then none
    else
      let ino := dfs_dirLookup DFS_INVALID_INODE dir name
      if ino = DFS_INVALID_INODE then some (ESTALE, s)
      else dremove s parent name ino rmdir

/-- Function `dfs_link` (fops.c:471-510). -/
def dfs_link (s : fs) (ino : Nat) (newparent : Nat) (newname : String) :
    Option (Nat × fs) :=
  match dfs_getInode s newparent with
  | none => some (ENOENT, s)
  | some dir =>
    if !S_ISDIR dir.st_mode then none
    else
      match dfs_getInode s ino with
      | none => some (ENOENT, s)
      | some inode =>
        if !S_ISREG inode.st_mode then none
        else
          let s1 := fs_modify s newparent
            (fun d => dfs_dirAdd d inode.st_ino inode.st_mode newname)
          some (0, fs_modify s1 ino (fun i => { i with st_nlink := nlink_inc i.st_nlink }))

/-- Removal of a replaced target in `dfs_rename` (fops.c:432-434 and 455-457): the value
`dremove` returns is dropped, a failed `assert` inside it is not. -/
def renameDropTarget (DFS_INVALID_INODE : Nat) (s : fs) (dir : Nat) (newname : String)
    (target : Nat) : Option fs :=
  if target ≠ DFS_INVALID_INODE then (dremove s dir newname target false).map Prod.snd
  else some s

/-- Function `dfs_rename` from the lookup of `name` on (fops.c:418-468); `sdir` is the
inode the source pointer resolves to and `tdir` the pointer to the target directory, NULL
(`none`) when none of the two tests on the parents held (then `parent = newparent`).  A
read through a pointer that `dfs_getInode` returned always finds the inode, so the
`none` branches of those reads are never taken. -/
def renameLocked (DFS_INVALID_INODE : Nat) (s : fs) (parent : Nat) (name : String)
    (newparent : Nat) (newname : String) (sdir : inode) (tdir : Option Nat) :
    Option (Nat × fs) :=
  let ino := dfs_dirLookup DFS_INVALID_INODE sdir name
  if ino = DFS_INVALID_INODE then some (ENOENT, s)
  else
    let tp := tdir.getD parent
    match dfs_getInode s tp with
    | none => none
    | some td =>
      let target := dfs_dirLookup DFS_INVALID_INODE td newname
      match renameDropTarget DFS_INVALID_INODE s tp newname target with
      | none => none
      | some s1 =>
        if parent ≠ newparent then
          match dfs_getInode s1 ino with
          | none => some (ENOENT, s1)
          | some inode =>
            let s2 := fs_modify s1 tp (fun d => dfs_dirAdd d ino inode.st_mode name)
            let s3 := fs_modify s2 parent (fun d => dfs_dirRemove d name)
            if S_ISDIR inode.st_mode then
              match s3 parent with
              | none => none
              | some sd =>
                if sd.st_nlink = 0 then none
                else
                  let s4 := fs_modify s3 parent
                    (fun d => { d with st_nlink := nlink_dec d.st_nlink })
                  some (0, fs_modify s4 tp
                    (fun d => { d with st_nlink := nlink_inc d.st_nlink }))
            else some (0, s3)
        else some (0, fs_modify s1 parent (fun d => dfs_dirRename d ino newname))

/-- Function `dfs_rename` from the resolution of the source directory on
(fops.c:396-468); `tdir` is NULL (`none`) unless it was resolved first. -/
def renameFromSdir (DFS_INVALID_INODE : Nat) (s : fs) (parent : Nat) (name : String)
    (newparent : Nat) (newname : String) (tdir : Option Nat) : Option (Nat × fs) :=
  match dfs_getInode s parent with
  | none => some (ENOENT, s)
  | some sdir =>
    if !S_ISDIR sdir.st_mode then none
    else if parent < newparent then
      match dfs_getInode s newparent with
      | none => some (ENOENT, s)
      | some td =>
        if !S_ISDIR td.st_mode then none
        else renameLocked DFS_INVALID_INODE s parent name newparent newname sdir
          (some newparent)
    else renameLocked DFS_INVALID_INODE s parent name newparent newname sdir tdir

/-- Function `dfs_rename` (fops.c:373-468): the reply and the inode table it leaves. -/
def dfs_rename (DFS_INVALID_INODE : Nat) (s : fs) (parent : Nat) (name : String)
    (newparent : Nat) (newname : String) : Option (Nat × fs) :=
  if parent > newparent then
    match dfs_getInode s newparent with
    | none => some (ENOENT, s)
    | some td =>
      if !S_ISDIR td.st_mode then none
      else renameFromSdir DFS_INVALID_INODE s parent name newparent newname
        (some newparent)
  else renameFromSdir DFS_INVALID_INODE s parent name newparent newname none

/-! ## fops.c: decomposition of a write into pages -/

/-- One call `dfs_addPage(inode, pg, poffset, psize, &buf[woff])` issued by
`dfs_write`. -/
structure addPageCall where
  /-- Page index. -/
  pg : Nat
  /-- Offset inside the page. -/
  poffset : Nat
  /-- Number of bytes. -/
  psize : Nat
  /-- Offset into the buffer of the caller. -/
  woff : Nat
deriving DecidableEq, Repr

/-- The loop `while (wsize)` of `dfs_write` (fops.c:616-631), run for at most `fuel`
iterations: the calls of `dfs_addPage` in the order issued, or `none` when the fuel runs
out before the loop ends. -/
def writeLoop (DFS_BLOCK_SIZE off spage : Nat) : Nat → Nat → Nat → Nat →
    Option (List addPageCall)
  | _, _, _, 0 => some []
  | 0, _, _, _ + 1 => none
  | fuel + 1, page, woff, w + 1 =>
    let wsize := w + 1
    let poffset := if page = spage then off % DFS_BLOCK_SIZE else 0
    let psize0 := if page = spage then DFS_BLOCK_SIZE - poffset else DFS_BLOCK_SIZE
    let psize := if psize0 > wsize then wsize else psize0
    (writeLoop DFS_BLOCK_SIZE off spage fuel (page + 1) (woff + psize) (wsize - psize)).map
      (fun rest => { pg := page, poffset := poffset, psize := psize, woff := woff } :: rest)

/-- The calls of `dfs_addPage` issued by `dfs_write(req, ino, buf, size, off, fi)` on a
resolvable regular file (fops.c:600-631): `spage = off / DFS_BLOCK_SIZE`, `page = spage`,
`woff = 0`, `wsize = size`; `size` iterations are enough fuel. -/
def dfs_write_calls (DFS_BLOCK_SIZE off size : Nat) : Option (List addPageCall) :=
  writeLoop DFS_BLOCK_SIZE off (off / DFS_BLOCK_SIZE) size (off / DFS_BLOCK_SIZE) 0 size

/-! ## Invariants -/

/-- Name uniqueness: in every directory of the inode table the names of the entries are
pairwise distinct. -/
def namesUnique (s : fs) : Prop :=
  ∀ k i, s k = some i → S_ISDIR i.st_mode = true → (i.i_dirent.map dirent.di_name).Nodup

/-- The name has no entry in the directory found under `parent`, if there is one. -/
def nameAbsent (s : fs) (parent : Nat) (name : String) : Prop :=
  ∀ d, s parent = some d → name ∉ d.i_dirent.map dirent.di_name

/-! ## Sample states used to instantiate the theorems -/

/-- A regular file with the given number and link count. -/
def sampleFile (ino nlink : Nat) : inode :=
  { st_ino := ino, st_mode := 0o100644, st_nlink := nlink, st_size := 0, i_dirent := [],
    i_removed := false }

/-- A directory (inode 1, mode 040755) holding `a -> 5`, `b -> 6` and `c -> 5`. -/
def sampleDir : inode :=
  { st_ino := 1, st_mode := 0o040755, st_nlink := 2, st_size := 0,
    i_dirent := [⟨5, "a", 1, S_IFREG⟩, ⟨6, "b", 1, S_IFREG⟩, ⟨5, "c", 1, S_IFREG⟩],
    i_removed := false }

/-- An empty directory (inode 2, mode 040755). -/
def emptyDir : inode :=
  { st_ino := 2, st_mode := 0o040755, st_nlink := 2, st_size := 0, i_dirent := [],
    i_removed := false }

/-- An inode table: the sample directory under 1, the empty directory under 2, and the
regular files 5 (two links) and 6 (one link) the sample directory names. -/
def sampleFs : fs := fun k =>
  if k = 1 then some sampleDir
  else if k = 2 then some emptyDir
  else if k = 5 then some (sampleFile 5 2)
  else if k = 6 then some (sampleFile 6 1)
  else none

/-- The root of a small tree (inode 1): it holds the directories `b -> 2` and `c -> 3`,
so its link count is 4. -/
def treeRoot : inode :=
  { st_ino := 1, st_mode := 0o040755, st_nlink := 4, st_size := 0,
    i_dirent := [⟨3, "c", 1, S_IFDIR⟩, ⟨2, "b", 1, S_IFDIR⟩], i_removed := false }

/-- The directory `c` of the small tree (inode 3): it holds the directory `d -> 4`, so
its link count is 3. -/
def treeC : inode :=
  { st_ino := 3, st_mode := 0o040755, st_nlink := 3, st_size := 0,
    i_dirent := [⟨4, "d", 1, S_IFDIR⟩], i_removed := false }

/-- An inode table holding the small tree: the root 1, the empty directories 2 and 4, and
the directory 3. -/
def treeFs : fs := fun k =>
  if k = 1 then some treeRoot
  else if k = 2 then some emptyDir
  else if k = 3 then some treeC
  else if k = 4 then some { emptyDir with st_ino := 4 }
  else none

/-! ## fops.c: truncation, lookup and directory listing -/

/-- A call into the page store (`dfs_addPage`, `dfs_readPages`, `dfs_truncPages`, declared
in includes.h).  Only the calls are recorded: the page chain is not part of `inode`. -/
inductive pageStoreCall where
  /-- Call `dfs_addPage(inode, pg, poffset, psize, buf)`. -/
  | addPage (pg poffset psize : Nat)
  /-- Call `dfs_readPages(inode, soffset, endoffset, buf)`. -/
  | readPages (soffset endoffset : Nat)
  /-- Call `dfs_truncPages(inode, size)`. -/
  | truncPages (size : Nat)
deriving DecidableEq, Repr

/-- Function `dfs_truncate` (fops.c:194-201): the inode it leaves and the page store calls
it makes; `none` when `assert(S_ISREG(...))` fails. -/
def dfs_truncate (inode : inode) (size : Nat) : Option (Lcfs.inode × List pageStoreCall) :=
  if !S_ISREG inode.st_mode then none
  else
    some ({ inode with st_size := size },
      if size < inode.st_size then [pageStoreCall.truncPages size] else [])

/-- What `dfs_lookup` sends back: `fuse_reply_err(req, errno)`, the negative entry
(`fuse_reply_entry` with a zeroed `ep`), or `fuse_reply_entry` with the handle and the
attributes of the inode found. -/
inductive lookupReply where
  /-- Reply `fuse_reply_err(req, errno)`. -/
  | err (errno : Nat)
  /-- Reply `fuse_reply_entry` with `ep.ino = 0`: the name is not there. -/
  | negative
  /-- Reply `fuse_reply_entry` for the inode found. -/
  | entry (ino : Nat) (attr : inode)
deriving DecidableEq, Repr

/-- Function `dfs_lookup` (fops.c:116-158): the reply it sends; `none` when the
`assert(S_ISDIR(...))` at the head of `dfs_dirLookup` fails.  It leaves the inode table as
it was. -/
def dfs_lookup (DFS_INVALID_INODE : Nat) (s : fs) (parent : Nat) (name : String) :
    Option lookupReply :=
  match dfs_getInode s parent with
  | none => some (lookupReply.err ENOENT)
  | some dir =>
    if !S_ISDIR dir.st_mode then none
    else
      let ino := dfs_dirLookup DFS_INVALID_INODE dir name
      if ino = DFS_INVALID_INODE then some lookupReply.negative
      else
        match dfs_getInode s ino with
        | none => some (lookupReply.err ENOENT)
        | some inode => some (lookupReply.entry ino inode)

/-- First loop of `dfs_readdir` (fops.c:703-706): entries are skipped while
`count < off`; it yields the entry reached and the count. -/
def readdirSkip (off : Nat) : List dirent → Nat → List dirent × Nat
  | [], count => ([], count)
  | dirent :: di_next, count =>
    if count < off then readdirSkip off di_next (count + 1) else (dirent :: di_next, count)

/-- Second loop of `dfs_readdir` (fops.c:709-722): `esize` stands for the size
`fuse_add_direntry` returns for an entry.  It yields the entries that lie within the
first `csize` bytes of the buffer, each with the cursor value it was added with, and the
final `csize`. -/
def readdirFill (esize : dirent → Nat) (size : Nat) :
    List dirent → Nat → Nat → List (dirent × Nat) × Nat
  | [], _, csize => ([], csize)
  | dirent :: di_next, count, csize =>
    if csize + esize dirent ≥ size then ([], csize)
    else
      let r := readdirFill esize size di_next (count + 1) (csize + esize dirent)
      ((dirent, count + 1) :: r.1, r.2)

/-- Function `dfs_readdir` (fops.c:678-730) on a resolved directory: the entries
replied, each with its cursor value, and the number of bytes replied. -/
def dfs_readdir (esize : dirent → Nat) (dir : inode) (size off : Nat) :
    List (dirent × Nat) × Nat :=
  let start := readdirSkip off dir.i_dirent 0
  readdirFill esize size start.1 start.2 0

/-! ## fops.c: lock operations of rename and link

The instrumented functions below follow the same control flow as `dfs_rename` and
`dfs_link` and also record, in the order performed, the lock operations: `dfs_lock` and
`dfs_unlock` on the registry, and for each inode the acquisition inside a `dfs_getInode`
that finds it and the `dfs_inodeUnlock`. -/

/-- A lock operation. -/
inductive lockEvent where
  /-- Call `dfs_lock(gfs, false)`. -/
  | gfsLock
  /-- Call `dfs_unlock(gfs)`. -/
  | gfsUnlock
  /-- Lock taken by a `dfs_getInode` that finds the inode with this number. -/
  | inodeLock (ino : Nat)
  /-- Call `dfs_inodeUnlock` on the inode with this number. -/
  | inodeUnlock (ino : Nat)
deriving DecidableEq, Repr

/-- Every lock is released as often as it is acquired. -/
def locksBalanced (tr : List lockEvent) : Prop :=
  tr.count lockEvent.gfsLock = tr.count lockEvent.gfsUnlock ∧
    ∀ ino, tr.count (lockEvent.inodeLock ino) = tr.count (lockEvent.inodeUnlock ino)

/-- The inode of the first inode lock acquired in a trace, if any. -/
def firstInodeLock : List lockEvent → Option Nat
  | [] => none
  | lockEvent.inodeLock ino :: _ => some ino
  | _ :: rest => firstInodeLock rest

/-- Lock operations of `dremove` (fops.c:50-81) on the target `ino`: none when it does
not resolve, no release when the `assert` fails, otherwise one acquisition and one
release. -/
def dremoveLocks (s : fs) (ino : Nat) : List lockEvent :=
  match dfs_getInode s ino with
  | none => []
  | some inode =>
    if inode.st_nlink = 0 then [lockEvent.inodeLock ino]
    else [lockEvent.inodeLock ino, lockEvent.inodeUnlock ino]

/-- Lock operations of the removal of a replaced target in `dfs_rename`. -/
def renameDropTargetLocks (DFS_INVALID_INODE : Nat) (s : fs) (target : Nat) :
    List lockEvent :=
  if target ≠ DFS_INVALID_INODE then dremoveLocks s target else []

/-- The release `if (tdir) dfs_inodeUnlock(tdir)`. -/
def tdirUnlock : Option Nat → List lockEvent
  | some t => [lockEvent.inodeUnlock t]
  | none => []

/-- Function `dfs_rename` from the lookup of `name` on (fops.c:418-468), with the lock
operations performed from there on. -/
def renameLockedTraced (DFS_INVALID_INODE : Nat) (s : fs) (parent : Nat) (name : String)
    (newparent : Nat) (newname : String) (sdir : inode) (tdir : Option Nat) :
    List lockEvent × Option (Nat × fs) :=
  let ino := dfs_dirLookup DFS_INVALID_INODE sdir name
  if ino = DFS_INVALID_INODE then
    (lockEvent.inodeUnlock parent :: tdirUnlock tdir, some (ENOENT, s))
  else
    let tp := tdir.getD parent
    match dfs_getInode s tp with
    | none => ([], none)
    | some td =>
      let target := dfs_dirLookup DFS_INVALID_INODE td newname
      let tr := renameDropTargetLocks DFS_INVALID_INODE s target
      match renameDropTarget DFS_INVALID_INODE s tp newname target with
      | none => (tr, none)
      | some s1 =>
        if parent ≠ newparent then
          match dfs_getInode s1 ino with
          | none =>
            (tr ++ [lockEvent.inodeUnlock parent, lockEvent.inodeUnlock tp,
              lockEvent.gfsUnlock], some (ENOENT, s1))
          | some inode =>
            let s2 := fs_modify s1 tp (fun d => dfs_dirAdd d ino inode.st_mode name)
            let s3 := fs_modify s2 parent (fun d => dfs_dirRemove d name)
            let done := tr ++ [lockEvent.inodeLock ino, lockEvent.inodeUnlock ino,
              lockEvent.inodeUnlock tp, lockEvent.inodeUnlock parent, lockEvent.gfsUnlock]
            if S_ISDIR inode.st_mode then
              match s3 parent with
              | none => (tr ++ [lockEvent.inodeLock ino], none)
              | some sd =>
                if sd.st_nlink = 0 then (tr ++ [lockEvent.inodeLock ino], none)
                else
                  let s4 := fs_modify s3 parent
                    (fun d => { d with st_nlink := nlink_dec d.st_nlink })
                  (done, some (0, fs_modify s4 tp
                    (fun d => { d with st_nlink := nlink_inc d.st_nlink })))
            else (done, some (0, s3))
        else
          (tr ++ tdirUnlock tdir ++ [lockEvent.inodeUnlock parent, lockEvent.gfsUnlock],
            some (0, fs_modify s1 parent (fun d => dfs_dirRename d ino newname)))

/-- The lock operations `pre` followed by those of `r`. -/
def afterLocks (pre : List lockEvent) (r : List lockEvent × Option (Nat × fs)) :
    List lockEvent × Option (Nat × fs) :=
  (pre ++ r.1, r.2)

/-- Function `dfs_rename` from the resolution of the source directory on
(fops.c:396-468), with the lock operations performed from there on. -/
def renameFromSdirTraced (DFS_INVALID_INODE : Nat) (s : fs) (parent : Nat)
    (name : String) (newparent : Nat) (newname : String) (tdir : Option Nat) :
    List lockEvent × Option (Nat × fs) :=
  match dfs_getInode s parent with
  | none => (tdirUnlock tdir ++ [lockEvent.gfsUnlock], some (ENOENT, s))
  | some sdir =>
    if !S_ISDIR sdir.st_mode then ([lockEvent.inodeLock parent], none)
    else if parent < newparent then
      match dfs_getInode s newparent with
      | none =>
        ([lockEvent.inodeLock parent, lockEvent.inodeUnlock parent, lockEvent.gfsUnlock],
          some (ENOENT, s))
      | some td =>
        if !S_ISDIR td.st_mode then
          ([lockEvent.inodeLock parent, lockEvent.inodeLock newparent], none)
        else
          afterLocks [lockEvent.inodeLock parent, lockEvent.inodeLock newparent]
            (renameLockedTraced DFS_INVALID_INODE s parent name newparent newname sdir
              (some newparent))
    else
      afterLocks [lockEvent.inodeLock parent]
        (renameLockedTraced DFS_INVALID_INODE s parent name newparent newname sdir tdir)

/-- Function `dfs_rename` (fops.c:373-468) with its lock operations: the trace, and the
reply and inode table as `dfs_rename` gives them. -/
def dfs_rename_traced (DFS_INVALID_INODE : Nat) (s : fs) (parent : Nat) (name : String)
    (newparent : Nat) (newname : String) : List lockEvent × Option (Nat × fs) :=
  if parent > newparent then
    match dfs_getInode s newparent with
    | none => ([lockEvent.gfsLock, lockEvent.gfsUnlock], some (ENOENT, s))
    | some td =>
      if !S_ISDIR td.st_mode then
        ([lockEvent.gfsLock, lockEvent.inodeLock newparent], none)
      else
        afterLocks [lockEvent.gfsLock, lockEvent.inodeLock newparent]
          (renameFromSdirTraced DFS_INVALID_INODE s parent name newparent newname
            (some newparent))
  else
    afterLocks [lockEvent.gfsLock]
      (renameFromSdirTraced DFS_INVALID_INODE s parent name newparent newname none)

/-- Function `dfs_link` (fops.c:471-510) with its lock operations. -/
def dfs_link_traced (s : fs) (ino : Nat) (newparent : Nat) (newname : String) :
    List lockEvent × Option (Nat × fs) :=
  match dfs_getInode s newparent with
  | none => ([lockEvent.gfsLock, lockEvent.gfsUnlock], some (ENOENT, s))
  | some dir =>
    if !S_ISDIR dir.st_mode then ([lockEvent.gfsLock, lockEvent.inodeLock newparent], none)
    else
      match dfs_getInode s ino with
      | none =>
        ([lockEvent.gfsLock, lockEvent.inodeLock newparent,
          lockEvent.inodeUnlock newparent, lockEvent.gfsUnlock], some (ENOENT, s))
      | some inode =>
        if !S_ISREG inode.st_mode then
          ([lockEvent.gfsLock, lockEvent.inodeLock newparent, lockEvent.inodeLock ino],
            none)
        else
          let s1 := fs_modify s newparent
            (fun d => dfs_dirAdd d inode.st_ino inode.st_mode newname)
          ([lockEvent.gfsLock, lockEvent.inodeLock newparent, lockEvent.inodeLock ino,
            lockEvent.inodeUnlock newparent, lockEvent.inodeUnlock ino,
            lockEvent.gfsUnlock],
            some (0, fs_modify s1 ino (fun i => { i with st_nlink := nlink_inc i.st_nlink })))

/-! ## fops.c: replies of getattr and read, and the size after a write -/

/-- A reply sent to the request: `fuse_reply_err`, `fuse_reply_buf` with the number of
bytes (`fuse_reply_buf(req, NULL, 0)` is `buf 0`), `fuse_reply_attr` with the attributes
of an inode, `fuse_reply_write` with a byte count. -/
inductive fuseReply where
  /-- Reply `fuse_reply_err(req, errno)`. -/
  | err (errno : Nat)
  /-- Reply `fuse_reply_buf(req, buf, nbytes)`. -/
  | buf (nbytes : Nat)
  /-- Reply `fuse_reply_attr(req, &stbuf, 1.0)`. -/
  | attr (stbuf : inode)
  /-- Reply `fuse_reply_write(req, count)`. -/
  | write (count : Nat)
deriving DecidableEq, Repr

/-- What a handler does that a caller can observe: a reply, or a read through a NULL
inode pointer, after which nothing is defined. -/
inductive handlerEvent where
  /-- A reply is sent. -/
  | reply (r : fuseReply)
  /-- The handler reads `inode->i_stat` with `inode == NULL`. -/
  | nullDeref
deriving DecidableEq, Repr

/-- Function `dfs_getattr` (fops.c:170-191): the events in the order performed.  When the
inode does not resolve the branch at fops.c:181-185 replies `ENOENT` and falls through to
the `memcpy` from `inode->i_stat` at fops.c:186. -/
def dfs_getattr (s : fs) (ino : Nat) : List handlerEvent :=
  match dfs_getInode s ino with
  | none => [handlerEvent.reply (fuseReply.err ENOENT), handlerEvent.nullDeref]
  | some inode => [handlerEvent.reply (fuseReply.attr inode)]

/-- Function `dfs_read` (fops.c:544-586): the replies sent and the page store calls made,
in the order performed; `none` when `assert(S_ISREG(...))` fails.  The branch for
`size == 0` (fops.c:555-557) replies and does not return. -/
def dfs_read (s : fs) (ino size off : Nat) :
    Option (List fuseReply × List pageStoreCall) :=
  let early : List fuseReply := if size = 0 then [fuseReply.buf 0] else []
  match dfs_getInode s ino with
  | none => some (early ++ [fuseReply.err ENOENT], [])
  | some inode =>
    if !S_ISREG inode.st_mode then none
    else
      let fsize := inode.st_size
      if off ≥ fsize then some (early ++ [fuseReply.buf 0], [])
      else
        let endoffset := if off + size > fsize then fsize else off + size
        some (early ++ [fuseReply.buf (endoffset - off)],
          [pageStoreCall.readPages off endoffset])

/-- Function `dfs_write` (fops.c:589-643): the reply, the inode table it leaves and the
`dfs_addPage` calls; `none` when `assert(S_ISREG(...))` fails (or the loop does not end,
which `DFS_BLOCK_SIZE > 0` excludes). -/
def dfs_write (DFS_BLOCK_SIZE : Nat) (s : fs) (ino size off : Nat) :
    Option (fuseReply × fs × List addPageCall) :=
  let endoffset := off + size
  match dfs_getInode s ino with
  | none => some (fuseReply.err ENOENT, s, [])
  | some inode =>
    if !S_ISREG inode.st_mode then none
    else
      match dfs_write_calls DFS_BLOCK_SIZE off size with
      | none => none
      | some calls =>
        some (fuseReply.write size,
          fs_modify s ino
            (fun i => if endoffset > i.st_size then { i with st_size := endoffset } else i),
          calls)

/-! ## dir.c: the name buffer of an entry -/

/-- A directory entry together with the buffer `di_name` points to: the address `malloc`
returned for it and the number of bytes allocated. -/
structure direntBuf where
  /-- The entry. -/
  ent : dirent
  /-- Address of the name buffer. -/
  addr : Nat
  /-- Size of the name buffer in bytes. -/
  cap : Nat
deriving DecidableEq, Repr

/-- A call to the allocator. -/
inductive allocEvent where
  /-- Call `free(p)`. -/
  | free (addr : Nat)
  /-- Call `malloc(size)` returning `addr`. -/
  | malloc (addr size : Nat)
deriving DecidableEq, Repr

/-- Loop of `dfs_dirRename` (dir.c:88-102) with the name buffers: the list it leaves and
the allocator calls it makes; `fresh` is the address `malloc(len + 1)` returns.  When
`len > di_size` the buffer is freed and a new one of `len + 1` bytes is allocated;
otherwise the name is copied into the buffer the entry has. -/
def dirRenameBufFrom (ino : Nat) (name : String) (fresh : Nat) :
    List direntBuf → List direntBuf × List allocEvent
  | [] => ([], [])
  | d :: di_next =>
    if d.ent.di_ino = ino then
      if name.length > d.ent.di_size then
        ({ ent := { d.ent with di_name := name, di_size := name.length }, addr := fresh,
           cap := name.length + 1 } :: di_next,
          [allocEvent.free d.addr, allocEvent.malloc fresh (name.length + 1)])
      else
        ({ d with ent := { d.ent with di_name := name, di_size := name.length } } :: di_next,
          [])
    else
      let r := dirRenameBufFrom ino name fresh di_next
      (d :: r.1, r.2)

/-- The entry built by `dfs_dirAdd` (dir.c:28-37) with its buffer of `nsize + 1` bytes at
the address `fresh`. -/
def dirAddBuf (ino mode : Nat) (name : String) (fresh : Nat) : direntBuf :=
  { ent := { di_ino := ino, di_name := name, di_size := name.length,
             di_mode := mode &&& S_IFMT },
    addr := fresh, cap := name.length + 1 }

/-! ## Reachable states and the link count invariant -/

/-- Number of entries of directory type in an entry list. -/
def subdirCount (l : List dirent) : Nat :=
  (l.filter (fun e => S_ISDIR e.di_mode)).length

/-- Link count invariant: every directory has the link count two plus the number of its
entries of directory type (in `nlink_t` arithmetic). -/
def linkCountInv (s : fs) : Prop :=
  ∀ k d, s k = some d → S_ISDIR d.st_mode = true →
    d.st_nlink = (2 + subdirCount d.i_dirent) % 2 ^ 64

/-- Inode tables reached by `create` (create, mknod, mkdir, symlink) from a table in
which every inode has an empty entry list and every directory the link count 2; each
`create` gets a number that is not in use. -/
inductive createReachable : fs → Prop where
  /-- A table of freshly initialised inodes. -/
  | init (s : fs) :
      (∀ k i, s k = some i → i.i_dirent = [] ∧ (S_ISDIR i.st_mode = true → i.st_nlink = 2)) →
      createReachable s
  /-- One successful `create`. -/
  | step (s s' : fs) (newino parent : Nat) (name : String) (mode : Nat) :
      createReachable s → s newino = none →
      create s newino parent name mode = some (0, s') → createReachable s'

/-- The inode table an operation leaves, or `s` when it aborted. -/
def tableAfter (r : Option (Nat × fs)) (s : fs) : fs :=
  match r with
  | some (_, s') => s'
  | none => s

/-- An inode table holding only the empty root directory 1. -/
def rootFs : fs := fun k =>
  if k = 1 then some { emptyDir with st_ino := 1 } else none

/-- The table after `mkdir a` in the root: directory 2. -/
def fsMkdirA : fs := tableAfter (create rootFs 2 1 "a" S_IFDIR) rootFs

/-- The table after `mkdir c` in directory 2: directory 3. -/
def fsMkdirC : fs := tableAfter (create fsMkdirA 3 2 "c" S_IFDIR) fsMkdirA

/-- The table after the creation of the regular file `f` in directory 3: inode 4. -/
def fsCreateF : fs := tableAfter (create fsMkdirC 4 3 "f" S_IFREG) fsMkdirC

/-- The table after `mkdir d` in directory 3 instead: directory 4. -/
def fsMkdirD : fs := tableAfter (create fsMkdirC 4 3 "d" S_IFDIR) fsMkdirC

/-- The table after `mkdir b` in the root of `fsMkdirA`: directory 3, beside `a`. -/
def fsMkdirB : fs := tableAfter (create fsMkdirA 3 1 "b" S_IFDIR) fsMkdirA

/-- The sample inode table after the creation of the regular file `b` in directory 2:
inode 7.  Directory 1 still holds `a`, `b` and `c`. -/
def sampleFsB : fs := tableAfter (create sampleFs 7 2 "b" S_IFREG) sampleFs

/-- The sample inode table with one more empty directory, numbered 7, above the regular
files 5 and 6. -/
def lateDirFs : fs := fs_store sampleFs 7 { emptyDir with st_ino := 7 }

/-- An inode table with a dangling entry: directory 1 holds `x -> 9` and no inode 9
exists; directory 2 holds `g -> 5`, a regular file with one link. -/
def danglingFs : fs := fun k =>
  if k = 1 then
    some { emptyDir with st_ino := 1, i_dirent := [⟨9, "x", 1, S_IFREG⟩] }
  else if k = 2 then some { emptyDir with i_dirent := [⟨5, "g", 1, S_IFREG⟩] }
  else if k = 5 then some (sampleFile 5 1)
  else none

/-! ## Typed removals and the states they reach -/

/-- The entry `dfs_dirLookup` and `dfs_dirRemove` match against a name: the first one
with that recorded length and content. -/
def matchedEntry (name : String) (l : List dirent) : Option dirent :=
  l.find? (fun e => decide (name.length = e.di_size ∧ name = e.di_name))

/-- The name of an unlink is bound, in the directory `parent`, by an entry that is not of
directory type to an inode that is not a directory. -/
def removesNonDir (DFS_INVALID_INODE : Nat) (s : fs) (parent : Nat) (name : String) :
    Prop :=
  ∀ P, s parent = some P →
    (∀ e, matchedEntry name P.i_dirent = some e → S_ISDIR e.di_mode = false) ∧
      (∀ T, s (dfs_dirLookup DFS_INVALID_INODE P name) = some T → S_ISDIR T.st_mode = false)

/-- The name of an rmdir is bound, in the directory `parent`, by an entry of directory
type. -/
def removesDir (s : fs) (parent : Nat) (name : String) : Prop :=
  ∀ P e, s parent = some P → matchedEntry name P.i_dirent = some e →
    S_ISDIR e.di_mode = true

/-- Inode tables reached from freshly initialised inodes by create/mkdir, link, unlink
of names that bind non-directories, rmdir of names bound by entries of directory type,
and rename within one directory to a name that has no entry in it. -/
inductive typedReachable (DFS_INVALID_INODE : Nat) : fs → Prop where
  /-- A table of freshly initialised inodes. -/
  | init (s : fs) :
      (∀ k i, s k = some i → i.i_dirent = [] ∧ (S_ISDIR i.st_mode = true → i.st_nlink = 2)) →
      typedReachable DFS_INVALID_INODE s
  /-- One `create`. -/
  | create (s s' : fs) (newino parent : Nat) (name : String) (mode err : Nat) :
      typedReachable DFS_INVALID_INODE s → s newino = none →
      Lcfs.create s newino parent name mode = some (err, s') →
      typedReachable DFS_INVALID_INODE s'
  /-- One `dfs_link`. -/
  | link (s s' : fs) (ino newparent : Nat) (newname : String) (err : Nat) :
      typedReachable DFS_INVALID_INODE s →
      dfs_link s ino newparent newname = some (err, s') →
      typedReachable DFS_INVALID_INODE s'
  /-- One unlink of a name that binds a non-directory. -/
  | unlink (s s' : fs) (parent : Nat) (name : String) (err : Nat) :
      typedReachable DFS_INVALID_INODE s →
      removesNonDir DFS_INVALID_INODE s parent name →
      dfs_remove DFS_INVALID_INODE s parent name false = some (err, s') →
      typedReachable DFS_INVALID_INODE s'
  /-- One rmdir of a name bound by an entry of directory type. -/
  | rmdir (s s' : fs) (parent : Nat) (name : String) (err : Nat) :
      typedReachable DFS_INVALID_INODE s → removesDir s parent name →
      dfs_remove DFS_INVALID_INODE s parent name true = some (err, s') →
      typedReachable DFS_INVALID_INODE s'
  /-- One rename within a directory to a name that has no entry in it. -/
  | rename (s s' : fs) (parent : Nat) (name newname : String) (err : Nat) :
      typedReachable DFS_INVALID_INODE s → nameAbsent s parent newname →
      dfs_rename DFS_INVALID_INODE s parent name parent newname = some (err, s') →
      typedReachable DFS_INVALID_INODE s'

/-! ## Directory entry store: lemmas -/

theorem dirLookupFrom_of_not_mem (INV : Nat) (N : String) (l : List dirent)
    (h : ∀ e ∈ l, e.di_name ≠ N) : dirLookupFrom INV N l = INV := by
  induction l with
  | nil => rfl
  | cons e r ih =>
    have he : e.di_name ≠ N := h e (List.mem_cons_self _ _)
    have hr : ∀ x ∈ r, x.di_name ≠ N := fun x hx => h x (List.mem_cons_of_mem _ hx)
    simp only [dirLookupFrom]
    rw [if_neg (fun hc => he hc.2.symm)]
    exact ih hr

theorem dirRemoveFrom_of_not_mem (N : String) (l : List dirent)
    (h : ∀ e ∈ l, e.di_name ≠ N) : dirRemoveFrom N l = l := by
  induction l with
  | nil => rfl
  | cons e r ih =>
    have he : e.di_name ≠ N := h e (List.mem_cons_self _ _)
    have hr : ∀ x ∈ r, x.di_name ≠ N := fun x hx => h x (List.mem_cons_of_mem _ hx)
    simp only [dirRemoveFrom]
    rw [if_neg (fun hc => he hc.2.symm), ih hr]

theorem dirRemoveFrom_sublist (N : String) (l : List dirent) :
    (dirRemoveFrom N l).Sublist l := by
  induction l with
  | nil => exact List.Sublist.refl _
  | cons e r ih =>
    simp only [dirRemoveFrom]
    split
    · exact List.sublist_cons_self e r
    · exact ih.cons₂ e

theorem dirLookupFrom_dirRemoveFrom (INV : Nat) (N : String) (l : List dirent)
    (hnd : (l.map dirent.di_name).Nodup) :
    dirLookupFrom INV N (dirRemoveFrom N l) = INV := by
  induction l with
  | nil => rfl
  | cons e r ih =>
    rw [List.map_cons, List.nodup_cons] at hnd
    simp only [dirRemoveFrom]
    by_cases hm : N.length = e.di_size ∧ N = e.di_name
    · rw [if_pos hm]
      apply dirLookupFrom_of_not_mem
      intro x hx hxN
      exact hnd.1 (List.mem_map.mpr ⟨x, hx, hxN.trans hm.2⟩)
    · rw [if_neg hm]
      simp only [dirLookupFrom]
      rw [if_neg hm]
      exact ih hnd.2

theorem dirLookupFrom_eq_find (INV : Nat) (N : String) (l : List dirent)
    (hwf : ∀ e ∈ l, e.di_size = e.di_name.length) :
    dirLookupFrom INV N l =
      match l.find? (fun e => e.di_name == N) with
      | some e => e.di_ino
      | none => INV := by
  induction l with
  | nil => rfl
  | cons e r ih =>
    have he : e.di_size = e.di_name.length := hwf e (List.mem_cons_self _ _)
    have hr : ∀ x ∈ r, x.di_size = x.di_name.length :=
      fun x hx => hwf x (List.mem_cons_of_mem _ hx)
    simp only [dirLookupFrom, List.find?]
    by_cases hn : e.di_name = N
    · have hm : N.length = e.di_size ∧ N = e.di_name := ⟨by rw [he, hn], hn.symm⟩
      have hb : (e.di_name == N) = true := by simp [hn]
      rw [if_pos hm, hb]
    · have hm : ¬ (N.length = e.di_size ∧ N = e.di_name) := fun hc => hn hc.2.symm
      have hb : (e.di_name == N) = false := by simp [hn]
      rw [if_neg hm, hb]
      exact ih hr

theorem dirRemoveFrom_eq_eraseP (N : String) (l : List dirent)
    (hwf : ∀ e ∈ l, e.di_size = e.di_name.length) :
    dirRemoveFrom N l = l.eraseP (fun e => e.di_name == N) := by
  induction l with
  | nil => rfl
  | cons e r ih =>
    have he : e.di_size = e.di_name.length := hwf e (List.mem_cons_self _ _)
    have hr : ∀ x ∈ r, x.di_size = x.di_name.length :=
      fun x hx => hwf x (List.mem_cons_of_mem _ hx)
    simp only [dirRemoveFrom, List.eraseP_cons]
    by_cases hn : e.di_name = N
    · have hm : N.length = e.di_size ∧ N = e.di_name := ⟨by rw [he, hn], hn.symm⟩
      have hb : (e.di_name == N) = true := by simp [hn]
      rw [if_pos hm, hb]
      rfl
    · have hm : ¬ (N.length = e.di_size ∧ N = e.di_name) := fun hc => hn hc.2.symm
      have hb : (e.di_name == N) = false := by simp [hn]
      rw [if_neg hm, hb, ih hr]
      rfl

theorem dirRemoveFrom_eq_eraseP_match (N : String) (l : List dirent) :
    dirRemoveFrom N l =
      l.eraseP (fun e => decide (N.length = e.di_size ∧ N = e.di_name)) := by
  induction l with
  | nil => rfl
  | cons e r ih =>
    simp only [dirRemoveFrom, List.eraseP_cons]
    by_cases hm : N.length = e.di_size ∧ N = e.di_name
    · rw [if_pos hm, decide_eq_true hm]
      rfl
    · rw [if_neg hm, decide_eq_false hm, ih]
      rfl

theorem dirRenameFrom_split (I : Nat) (M : String) (pre post : List dirent) (e : dirent)
    (hpre : ∀ x ∈ pre, x.di_ino ≠ I) (he : e.di_ino = I) :
    dirRenameFrom I M (pre ++ e :: post) =
      pre ++ { e with di_name := M, di_size := M.length } :: post := by
  induction pre with
  | nil => simp [dirRenameFrom, he]
  | cons x r ih =>
    have hx : x.di_ino ≠ I := hpre x (List.mem_cons_self _ _)
    have hr : ∀ y ∈ r, y.di_ino ≠ I := fun y hy => hpre y (List.mem_cons_of_mem _ hy)
    rw [List.cons_append, List.cons_append, dirRenameFrom, if_neg hx, ih hr]

theorem dirRenameFrom_of_not_mem (I : Nat) (M : String) (l : List dirent)
    (h : ∀ x ∈ l, x.di_ino ≠ I) : dirRenameFrom I M l = l := by
  induction l with
  | nil => rfl
  | cons x r ih =>
    have hx : x.di_ino ≠ I := h x (List.mem_cons_self _ _)
    have hr : ∀ y ∈ r, y.di_ino ≠ I := fun y hy => h y (List.mem_cons_of_mem _ hy)
    simp only [dirRenameFrom]
    rw [if_neg hx, ih hr]

theorem dirCopy_foldl (l : List dirent) (dst : inode) :
    (l.foldl (fun acc d => dfs_dirAdd acc d.di_ino d.di_mode d.di_name) dst).i_dirent =
      (l.map copiedEntry).reverse ++ dst.i_dirent := by
  induction l generalizing dst with
  | nil => simp
  | cons e r ih =>
    rw [List.foldl_cons, ih]
    simp [dfs_dirAdd, copiedEntry]

/-! ## Directory entry store: contract -/

/-- C1: for every directory D, inode number I, mode and name N, after
`dfs_dirAdd(D, I, mode, N)` the lookup `dfs_dirLookup(D, N)` returns I.  This holds
for every N, in particular for every N that has no entry in D. -/
theorem C1_lookup_after_add (DFS_INVALID_INODE : Nat) (D : inode) (I mode : Nat)
    (N : String) :
    dfs_dirLookup DFS_INVALID_INODE (dfs_dirAdd D I mode N) N = I := by
  simp [dfs_dirLookup, dfs_dirAdd, dirLookupFrom]

/-- C2: for every directory D whose entry names are pairwise distinct and every name N,
in particular every N that has an entry in D, after `dfs_dirRemove(D, N)` the lookup
`dfs_dirLookup(D, N)` returns `DFS_INVALID_INODE`. -/
theorem C2_lookup_after_remove (DFS_INVALID_INODE : Nat) (D : inode) (N : String)
    (hdistinct : (D.i_dirent.map dirent.di_name).Nodup) :
    dfs_dirLookup DFS_INVALID_INODE (dfs_dirRemove D N) N = DFS_INVALID_INODE := by
  simp only [dfs_dirLookup, dfs_dirRemove]
  exact dirLookupFrom_dirRemoveFrom DFS_INVALID_INODE N D.i_dirent hdistinct

/-- Witness of C2: removing `a` from the sample directory, with `DFS_INVALID_INODE = 0`. -/
theorem C2_lookup_after_remove_witness :
    (sampleDir.i_dirent.map dirent.di_name).Nodup ∧
      dfs_dirLookup 0 (dfs_dirRemove sampleDir "a") "a" = 0 :=
  ⟨by decide, C2_lookup_after_remove 0 sampleDir "a" (by decide)⟩

/-- C3: for every directory D in which each entry records the length of its name, and
every name N, `dfs_dirLookup(D, N)` returns the inode number of the first entry, in list
order from the head, whose name is N, and `DFS_INVALID_INODE` when there is none.  The
function only reads D: it returns the number and nothing else. -/
theorem C3_lookup_first_match (DFS_INVALID_INODE : Nat) (D : inode) (N : String)
    (hsize : ∀ e ∈ D.i_dirent, e.di_size = e.di_name.length) :
    dfs_dirLookup DFS_INVALID_INODE D N =
      match D.i_dirent.find? (fun e => e.di_name == N) with
      | some e => e.di_ino
      | none => DFS_INVALID_INODE :=
  dirLookupFrom_eq_find DFS_INVALID_INODE N D.i_dirent hsize

/-- Witness of C3: looking up `c` in the sample directory. -/
theorem C3_lookup_first_match_witness :
    (∀ e ∈ sampleDir.i_dirent, e.di_size = e.di_name.length) ∧
      dfs_dirLookup 0 sampleDir "c" =
        match sampleDir.i_dirent.find? (fun e => e.di_name == "c") with
        | some e => e.di_ino
        | none => 0 :=
  ⟨by decide, C3_lookup_first_match 0 sampleDir "c" (by decide)⟩

/-- Every entry `dfs_dirAdd` writes records the length of its name (dir.c:32-36), and the
entries already there are kept as they are. -/
theorem dfs_dirAdd_sizes (dir : inode) (ino mode : Nat) (name : String)
    (h : ∀ e ∈ dir.i_dirent, e.di_size = e.di_name.length) :
    ∀ e ∈ (dfs_dirAdd dir ino mode name).i_dirent, e.di_size = e.di_name.length := by
  intro e he
  rcases List.mem_cons.mp he with h0 | h1
  · rw [h0]
  · exact h e h1

/-- Function `dfs_dirRemove` leaves entries that record the length of their name. -/
theorem dfs_dirRemove_sizes (dir : inode) (name : String)
    (h : ∀ e ∈ dir.i_dirent, e.di_size = e.di_name.length) :
    ∀ e ∈ (dfs_dirRemove dir name).i_dirent, e.di_size = e.di_name.length :=
  fun e he => h e ((dirRemoveFrom_sublist name dir.i_dirent).subset he)

theorem dirRenameFrom_sizes (ino : Nat) (name : String) (l : List dirent)
    (h : ∀ e ∈ l, e.di_size = e.di_name.length) :
    ∀ e ∈ dirRenameFrom ino name l, e.di_size = e.di_name.length := by
  induction l with
  | nil =>
    intro e he
    cases he
  | cons d r ih =>
    have hr : ∀ x ∈ r, x.di_size = x.di_name.length :=
      fun x hx => h x (List.mem_cons_of_mem _ hx)
    intro e he
    unfold dirRenameFrom at he
    split at he
    · rcases List.mem_cons.mp he with h0 | h1
      · rw [h0]
      · exact hr e h1
    · rcases List.mem_cons.mp he with h0 | h1
      · rw [h0]
        exact h d (List.mem_cons_self _ _)
      · exact ih hr e h1

/-- Function `dfs_dirRename` writes the length of the new name with the name
(dir.c:96-98). -/
theorem dfs_dirRename_sizes (dir : inode) (ino : Nat) (name : String)
    (h : ∀ e ∈ dir.i_dirent, e.di_size = e.di_name.length) :
    ∀ e ∈ (dfs_dirRename dir ino name).i_dirent, e.di_size = e.di_name.length :=
  dirRenameFrom_sizes ino name dir.i_dirent h

/-- Function `dfs_dirCopy` makes its entries with `dfs_dirAdd`, whatever the source
holds. -/
theorem dfs_dirCopy_sizes (dst src : inode)
    (h : ∀ e ∈ dst.i_dirent, e.di_size = e.di_name.length) :
    ∀ e ∈ (dfs_dirCopy dst src).i_dirent, e.di_size = e.di_name.length := by
  unfold dfs_dirCopy
  induction src.i_dirent generalizing dst with
  | nil => exact h
  | cons d r ih =>
    rw [List.foldl_cons]
    exact ih _ (dfs_dirAdd_sizes dst d.di_ino d.di_mode d.di_name h)

/-- C4: for every directory D and every name N, the entry list after
`dfs_dirRemove(D, N)` is the list before with exactly the first entry named N deleted,
the other entries unchanged and in the same order; when no entry is named N the list is
the list before.  The entries of D record the length of their name: `di_size` is written
only by `dfs_dirAdd` (dir.c:36) and `dfs_dirRename` (dir.c:98), each time as the length of
the name stored with it. -/
theorem C4_remove_first_match (D : inode) (N : String)
    (hsize : ∀ e ∈ D.i_dirent, e.di_size = e.di_name.length) :
    (dfs_dirRemove D N).i_dirent = D.i_dirent.eraseP (fun e => e.di_name == N) ∧
      ((∀ e ∈ D.i_dirent, e.di_name ≠ N) → (dfs_dirRemove D N).i_dirent = D.i_dirent) :=
  ⟨dirRemoveFrom_eq_eraseP N D.i_dirent hsize,
    fun h => dirRemoveFrom_of_not_mem N D.i_dirent h⟩

/-- Witness of C4: removing `b` from the sample directory. -/
theorem C4_remove_first_match_witness :
    (∀ e ∈ sampleDir.i_dirent, e.di_size = e.di_name.length) ∧
      ((dfs_dirRemove sampleDir "b").i_dirent =
          sampleDir.i_dirent.eraseP (fun e => e.di_name == "b") ∧
        ((∀ e ∈ sampleDir.i_dirent, e.di_name ≠ "b") →
          (dfs_dirRemove sampleDir "b").i_dirent = sampleDir.i_dirent)) :=
  ⟨by decide, C4_remove_first_match sampleDir "b" (by decide)⟩

/-- C5: for every directory D, inode number I and new name M of any length, after
`dfs_dirRename(D, I, M)` the first entry of D bound to I has the name M and the recorded
length `strlen(M)` and keeps its place, inode number and type, and every other entry is
unchanged; when no entry is bound to I the list is unchanged. -/
theorem C5_rename_entry (D : inode) (I : Nat) (M : String) :
    (∀ (pre post : List dirent) (e : dirent), D.i_dirent = pre ++ e :: post →
        (∀ x ∈ pre, x.di_ino ≠ I) → e.di_ino = I →
        (dfs_dirRename D I M).i_dirent =
          pre ++ { di_ino := e.di_ino, di_name := M, di_size := M.length,
                   di_mode := e.di_mode } :: post) ∧
      ((∀ x ∈ D.i_dirent, x.di_ino ≠ I) → (dfs_dirRename D I M).i_dirent = D.i_dirent) := by
  refine ⟨?_, fun h => dirRenameFrom_of_not_mem I M D.i_dirent h⟩
  intro pre post e hD hpre he
  simp only [dfs_dirRename, hD]
  exact dirRenameFrom_split I M pre post e hpre he

/-- Witness of C5: renaming inode 6 of the sample directory to a longer name. -/
theorem C5_rename_entry_witness :
    sampleDir.i_dirent = [⟨5, "a", 1, S_IFREG⟩] ++ ⟨6, "b", 1, S_IFREG⟩ ::
        [⟨5, "c", 1, S_IFREG⟩] ∧
      (dfs_dirRename sampleDir 6 "long").i_dirent =
        [⟨5, "a", 1, S_IFREG⟩] ++ ⟨6, "long", 4, S_IFREG⟩ :: [⟨5, "c", 1, S_IFREG⟩] :=
  ⟨rfl, (C5_rename_entry sampleDir 6 "long").1 [⟨5, "a", 1, S_IFREG⟩]
    [⟨5, "c", 1, S_IFREG⟩] ⟨6, "b", 1, S_IFREG⟩ rfl (by decide) rfl⟩

/-- C6: for every destination dst and source src, after `dfs_dirCopy(dst, src)` the
entry list of dst is one copy of every entry of src (same name, same inode number, same
type bits, recorded length the length of the name), in reverse order, followed by the
previous entries of dst; src is an input only.  Hence copying into an empty directory
yields exactly the names and inode numbers of the source. -/
theorem C6_copy_entries (dst src : inode) :
    (dfs_dirCopy dst src).i_dirent = (src.i_dirent.map copiedEntry).reverse ++ dst.i_dirent ∧
      (∀ e : dirent, (copiedEntry e).di_name = e.di_name ∧
        (copiedEntry e).di_ino = e.di_ino ∧
        (copiedEntry e).di_mode &&& S_IFMT = e.di_mode &&& S_IFMT) ∧
      (dst.i_dirent = [] →
        (dfs_dirCopy dst src).i_dirent.map (fun e => (e.di_name, e.di_ino)) =
          (src.i_dirent.map (fun e => (e.di_name, e.di_ino))).reverse) := by
  have hcopy : (dfs_dirCopy dst src).i_dirent =
      (src.i_dirent.map copiedEntry).reverse ++ dst.i_dirent :=
    dirCopy_foldl src.i_dirent dst
  refine ⟨hcopy, ?_, ?_⟩
  · intro e
    refine ⟨rfl, rfl, ?_⟩
    show (e.di_mode &&& S_IFMT) &&& S_IFMT = e.di_mode &&& S_IFMT
    have hmask : S_IFMT &&& S_IFMT = S_IFMT := by decide
    rw [Nat.land_assoc, hmask]
  · intro hempty
    rw [hcopy, hempty, List.append_nil, ← List.map_reverse, List.map_map, ← List.map_reverse]
    rfl

/-- Witness of C6: copying the sample directory into the empty directory. -/
theorem C6_copy_entries_witness :
    emptyDir.i_dirent = [] ∧
      (dfs_dirCopy emptyDir sampleDir).i_dirent.map (fun e => (e.di_name, e.di_ino)) =
        (sampleDir.i_dirent.map (fun e => (e.di_name, e.di_ino))).reverse :=
  ⟨rfl, (C6_copy_entries emptyDir sampleDir).2.2 rfl⟩

/-! ## Inode table: lemmas -/

theorem fs_store_apply (s : fs) (p : Nat) (v : inode) (k : Nat) :
    fs_store s p v k = if k = p then some v else s k := rfl

theorem fs_modify_apply (s : fs) (p : Nat) (f : inode → inode) (k : Nat) :
    fs_modify s p f k = if k = p then (s p).map f else s k := by
  unfold fs_modify
  cases hp : s p with
  | none =>
    by_cases hk : k = p
    · simp [hk, hp]
    · simp [hk]
  | some v => simp [fs_store_apply]

theorem namesUnique_store (s : fs) (p : Nat) (v : inode) (hs : namesUnique s)
    (hv : S_ISDIR v.st_mode = true → (v.i_dirent.map dirent.di_name).Nodup) :
    namesUnique (fs_store s p v) := by
  intro k i hk hdir
  rw [fs_store_apply] at hk
  by_cases hkp : k = p
  · rw [if_pos hkp] at hk
    cases hk
    exact hv hdir
  · rw [if_neg hkp] at hk
    exact hs k i hk hdir

theorem namesUnique_modify (s : fs) (p : Nat) (f : inode → inode) (hs : namesUnique s)
    (hf : ∀ d, s p = some d → S_ISDIR (f d).st_mode = true →
      ((f d).i_dirent.map dirent.di_name).Nodup) :
    namesUnique (fs_modify s p f) := by
  intro k i hk hdir
  rw [fs_modify_apply] at hk
  by_cases hkp : k = p
  · rw [if_pos hkp] at hk
    cases hp : s p with
    | none => rw [hp] at hk; cases hk
    | some d =>
      rw [hp] at hk
      cases hk
      exact hf d hp hdir
  · rw [if_neg hkp] at hk
    exact hs k i hk hdir

/-- An update that keeps the mode and leaves a sublist of the entries keeps the names
distinct. -/
theorem namesUnique_modify_sublist (s : fs) (p : Nat) (f : inode → inode)
    (hs : namesUnique s)
    (hf : ∀ d, (f d).st_mode = d.st_mode ∧ (f d).i_dirent.Sublist d.i_dirent) :
    namesUnique (fs_modify s p f) := by
  apply namesUnique_modify s p f hs
  intro d hd hdir
  rw [(hf d).1] at hdir
  exact ((hf d).2.map dirent.di_name).nodup (hs p d hd hdir)

theorem namesUnique_dremove (s s' : fs) (dir : Nat) (name : String) (ino err : Nat)
    (rmdir : Bool) (hs : namesUnique s)
    (hr : dremove s dir name ino rmdir = some (err, s')) : namesUnique s' := by
  unfold dremove at hr
  cases hT : dfs_getInode s ino with
  | none =>
    rw [hT] at hr
    cases hr
    exact hs
  | some T =>
    rw [hT] at hr
    simp only at hr
    split at hr
    · cases hr
    · split at hr
      · split at hr
        · cases hr
          exact hs
        · cases hr
          apply namesUnique_modify_sublist
          · apply namesUnique_modify_sublist
            · apply namesUnique_modify_sublist _ _ _ hs
              intro d
              exact ⟨rfl, List.Sublist.refl _⟩
            · intro d
              exact ⟨rfl, List.Sublist.refl _⟩
          · intro d
            exact ⟨rfl, dirRemoveFrom_sublist name d.i_dirent⟩
      · cases hr
        apply namesUnique_modify_sublist
        · apply namesUnique_modify_sublist
          · apply namesUnique_modify_sublist _ _ _ hs
            intro d
            exact ⟨rfl, List.Sublist.refl _⟩
          · intro d
            split
            · exact ⟨rfl, List.Sublist.refl _⟩
            · exact ⟨rfl, List.Sublist.refl _⟩
        · intro d
          exact ⟨rfl, dirRemoveFrom_sublist name d.i_dirent⟩

theorem namesUnique_create (s s' : fs) (newino parent : Nat) (name : String)
    (mode err : Nat) (hs : namesUnique s) (habs : nameAbsent s parent name)
    (hr : create s newino parent name mode = some (err, s')) : namesUnique s' := by
  unfold create at hr
  cases hP : dfs_getInode s parent with
  | none =>
    rw [hP] at hr
    cases hr
    exact hs
  | some P =>
    rw [hP] at hr
    simp only [dfs_inodeInit] at hr
    split at hr
    · cases hr
    · cases hr
      generalize (if S_ISDIR mode = true then 2 else 1) = n0
      have h1 : namesUnique (fs_store s newino
          { st_ino := newino, st_mode := mode, st_nlink := n0,
            st_size := 0, i_dirent := [], i_removed := false }) :=
        namesUnique_store s newino _ hs (fun _ => List.nodup_nil)
      have h2 : namesUnique (fs_modify (fs_store s newino
          { st_ino := newino, st_mode := mode, st_nlink := n0,
            st_size := 0, i_dirent := [], i_removed := false }) parent
          (fun d => dfs_dirAdd d newino mode name)) := by
        apply namesUnique_modify _ _ _ h1
        intro d hd hdir
        show (List.map dirent.di_name (_ :: d.i_dirent)).Nodup
        rw [List.map_cons, List.nodup_cons]
        rw [fs_store_apply] at hd
        by_cases hpn : parent = newino
        · rw [if_pos hpn] at hd
          cases hd
          exact ⟨List.not_mem_nil _, List.nodup_nil⟩
        · rw [if_neg hpn] at hd
          exact ⟨habs d hd, hs parent d hd hdir⟩
      split
      · exact namesUnique_modify_sublist _ _ _ h2 (fun d => ⟨rfl, List.Sublist.refl _⟩)
      · exact h2

theorem namesUnique_link (s s' : fs) (ino newparent : Nat) (newname : String) (err : Nat)
    (hs : namesUnique s) (habs : nameAbsent s newparent newname)
    (hr : dfs_link s ino newparent newname = some (err, s')) : namesUnique s' := by
  unfold dfs_link at hr
  cases hP : dfs_getInode s newparent with
  | none =>
    rw [hP] at hr
    cases hr
    exact hs
  | some P =>
    rw [hP] at hr
    simp only at hr
    split at hr
    · cases hr
    · cases hT : dfs_getInode s ino with
      | none =>
        rw [hT] at hr
        cases hr
        exact hs
      | some T =>
        rw [hT] at hr
        simp only at hr
        split at hr
        · cases hr
        · cases hr
          apply namesUnique_modify_sublist
          · apply namesUnique_modify _ _ _ hs
            intro d hd hdir
            show (List.map dirent.di_name (_ :: d.i_dirent)).Nodup
            rw [List.map_cons, List.nodup_cons]
            exact ⟨habs d hd, hs newparent d hd hdir⟩
          · intro d
            exact ⟨rfl, List.Sublist.refl _⟩

theorem namesUnique_remove (INV : Nat) (s s' : fs) (parent : Nat) (name : String)
    (rmdir : Bool) (err : Nat) (hs : namesUnique s)
    (hr : dfs_remove INV s parent name rmdir = some (err, s')) : namesUnique s' := by
  unfold dfs_remove at hr
  cases hP : dfs_getInode s parent with
  | none =>
    rw [hP] at hr
    cases hr
    exact hs
  | some P =>
    rw [hP] at hr
    simp only at hr
    split at hr
    · cases hr
    · split at hr
      · cases hr
        exact hs
      · exact namesUnique_dremove s s' parent name _ err rmdir hs hr

theorem dirRenameFrom_names_subset (I : Nat) (M : String) (l : List dirent) (x : String)
    (hx : x ∈ (dirRenameFrom I M l).map dirent.di_name) :
    x = M ∨ x ∈ l.map dirent.di_name := by
  induction l with
  | nil => simp [dirRenameFrom] at hx
  | cons e r ih =>
    simp only [dirRenameFrom] at hx
    split at hx
    · rw [List.map_cons, List.mem_cons] at hx
      rcases hx with hx | hx
      · exact Or.inl hx
      · exact Or.inr (by rw [List.map_cons]; exact List.mem_cons_of_mem _ hx)
    · rw [List.map_cons, List.mem_cons] at hx
      rcases hx with hx | hx
      · exact Or.inr (by rw [List.map_cons, hx]; exact List.mem_cons_self _ _)
      · rcases ih hx with h | h
        · exact Or.inl h
        · exact Or.inr (by rw [List.map_cons]; exact List.mem_cons_of_mem _ h)

theorem dirRenameFrom_nodup (I : Nat) (M : String) (l : List dirent)
    (hnd : (l.map dirent.di_name).Nodup) (hM : M ∉ l.map dirent.di_name) :
    ((dirRenameFrom I M l).map dirent.di_name).Nodup := by
  induction l with
  | nil => simp [dirRenameFrom]
  | cons e r ih =>
    rw [List.map_cons, List.nodup_cons] at hnd
    rw [List.map_cons, List.mem_cons, not_or] at hM
    simp only [dirRenameFrom]
    split
    · rw [List.map_cons, List.nodup_cons]
      exact ⟨hM.2, hnd.2⟩
    · rw [List.map_cons, List.nodup_cons]
      refine ⟨?_, ih hnd.2 hM.2⟩
      intro hmem
      rcases dirRenameFrom_names_subset I M r _ hmem with h | h
      · exact hM.1 h.symm
      · exact hnd.1 h

theorem namesUnique_rename_same_dir (INV : Nat) (s s' : fs) (parent : Nat)
    (name newname : String) (err : Nat) (hs : namesUnique s)
    (habs : nameAbsent s parent newname)
    (hr : dfs_rename INV s parent name parent newname = some (err, s')) :
    namesUnique s' := by
  unfold dfs_rename at hr
  rw [if_neg (Nat.lt_irrefl parent)] at hr
  unfold renameFromSdir at hr
  cases hP : dfs_getInode s parent with
  | none =>
    rw [hP] at hr
    cases hr
    exact hs
  | some P =>
    rw [hP] at hr
    simp only at hr
    split at hr
    · cases hr
    · rw [if_neg (Nat.lt_irrefl parent)] at hr
      unfold renameLocked at hr
      simp only [Option.getD_none, hP] at hr
      split at hr
      · cases hr
        exact hs
      · have htarget : dfs_dirLookup INV P newname = INV :=
          dirLookupFrom_of_not_mem INV newname P.i_dirent
            (fun e he hname => habs P hP (List.mem_map.mpr ⟨e, he, hname⟩))
        rw [htarget] at hr
        simp only [renameDropTarget, ne_eq, not_true_eq_false, if_false] at hr
        cases hr
        apply namesUnique_modify _ _ _ hs
        intro d hd hdir
        exact dirRenameFrom_nodup _ newname d.i_dirent (hs parent d hd hdir) (habs d hd)

theorem namesUnique_sampleFs : namesUnique sampleFs := by
  intro k i hk _
  unfold sampleFs at hk
  split at hk
  · cases hk; decide
  · split at hk
    · cases hk; decide
    · split at hk
      · cases hk; decide
      · split at hk
        · cases hk; decide
        · cases hk

/-! ## Name uniqueness across the entry points -/

/-- Where the names stay distinct: if the names in every directory are pairwise distinct
before create/mknod/mkdir/symlink (`create`) or link (`dfs_link`) runs with a name that
has no entry in the parent directory (what the caller of `dfs_dirAdd` has to ensure), or
before rename within one directory runs with a new name that has no entry in it, or
before unlink/rmdir (`dfs_remove`) runs with any arguments, then they are pairwise
distinct in every directory afterwards. -/
theorem namesUnique_preserved (DFS_INVALID_INODE : Nat) (s : fs)
    (hs : namesUnique s) :
    (∀ newino parent name mode err s', nameAbsent s parent name →
        create s newino parent name mode = some (err, s') → namesUnique s') ∧
      (∀ ino newparent newname err s', nameAbsent s newparent newname →
        dfs_link s ino newparent newname = some (err, s') → namesUnique s') ∧
      (∀ parent name newname err s', nameAbsent s parent newname →
        dfs_rename DFS_INVALID_INODE s parent name parent newname = some (err, s') →
          namesUnique s') ∧
      (∀ parent name rmdir err s',
        dfs_remove DFS_INVALID_INODE s parent name rmdir = some (err, s') →
          namesUnique s') :=
  ⟨fun newino parent name mode err s' habs hr =>
      namesUnique_create s s' newino parent name mode err hs habs hr,
    fun ino newparent newname err s' habs hr =>
      namesUnique_link s s' ino newparent newname err hs habs hr,
    fun parent name newname err s' habs hr =>
      namesUnique_rename_same_dir DFS_INVALID_INODE s s' parent name newname err hs habs hr,
    fun parent name rmdir err s' hr =>
      namesUnique_remove DFS_INVALID_INODE s s' parent name rmdir err hs hr⟩

/-- On the sample inode table, mkdir of the new name `d` in directory 1 succeeds and
keeps the names distinct. -/
theorem namesUnique_preserved_example :
    namesUnique sampleFs ∧ nameAbsent sampleFs 1 "d" ∧
      ∃ s', create sampleFs 7 1 "d" S_IFDIR = some (0, s') ∧ namesUnique s' :=
  have habs : nameAbsent sampleFs 1 "d" := by
    intro d hd
    have hd' : d = sampleDir := by
      have h1 : sampleFs 1 = some sampleDir := rfl
      rw [h1] at hd
      exact (Option.some.inj hd).symm
    rw [hd']
    decide
  ⟨namesUnique_sampleFs, habs, _, rfl,
    (namesUnique_preserved 0 sampleFs namesUnique_sampleFs).1 7 1 "d" S_IFDIR 0 _
      habs rfl⟩

/-- C7, evaluated on the code (with `DFS_INVALID_INODE = 0`): in `sampleFsB` the names
are pairwise distinct in every directory; directory 1 holds `b -> 6` and directory 2
holds `b -> 7` and no entry named `g`.  Renaming `b` of directory 1 to `g` in directory 2
replies success and leaves directory 2 with two entries named `b`: the names are no
longer distinct. -/
theorem C7_rename_duplicates_name :
    namesUnique sampleFsB ∧
      ∃ s' S T, sampleFsB 2 = some S ∧ S.i_dirent.map dirent.di_name = ["b"] ∧
        dfs_rename 0 sampleFsB 1 "b" 2 "g" = some (0, s') ∧
        s' 2 = some T ∧ T.i_dirent = [⟨6, "b", 1, S_IFREG⟩, ⟨7, "b", 1, S_IFREG⟩] ∧
        ¬ namesUnique s' := by
  have habs : nameAbsent sampleFs 2 "b" := by
    intro d hd
    have h2 : sampleFs 2 = some emptyDir := rfl
    rw [h2] at hd
    cases hd
    decide
  have hu : namesUnique sampleFsB :=
    namesUnique_create sampleFs sampleFsB 7 2 "b" S_IFREG 0 namesUnique_sampleFs habs rfl
  refine ⟨hu, _, _, _, rfl, by decide, rfl, rfl, by decide, ?_⟩
  intro h
  have hdup := h 2 _ rfl (by decide)
  revert hdup
  decide

/-! ## Rename across directories -/

/-- C8, evaluated on the code (with `DFS_INVALID_INODE = 0`): renaming `b`, bound to
inode 6 in directory 1, to `g` in the empty directory 2 replies success; afterwards the
lookup of `g` in directory 2 returns `DFS_INVALID_INODE` and inode 6 is bound there under
the old name `b`; the lookup of `b` in directory 1 returns `DFS_INVALID_INODE`. -/
theorem C8_rename_adds_old_name :
    ∃ s' S T, dfs_rename 0 sampleFs 1 "b" 2 "g" = some (0, s') ∧
      s' 1 = some S ∧ s' 2 = some T ∧
      dfs_dirLookup 0 sampleDir "b" = 6 ∧
      dfs_dirLookup 0 T "g" = 0 ∧ dfs_dirLookup 0 T "b" = 6 ∧
      dfs_dirLookup 0 S "b" = 0 :=
  ⟨_, _, _, rfl, rfl, rfl, by decide, by decide, by decide, by decide⟩

/-! ## Removal of a directory -/

theorem nlink_dec_succ (n : Nat) : (nlink_dec n + 1) % 2 ^ 64 = n % 2 ^ 64 := by
  unfold nlink_dec NLINK_MOD
  norm_num
  omega

theorem nlink_dec_of_pos (n : Nat) (hpos : 0 < n) (hlt : n < 2 ^ 64) :
    nlink_dec n + 1 = n := by
  unfold nlink_dec NLINK_MOD
  norm_num at hlt ⊢
  omega

theorem dremove_rmdir_eq (s : fs) (dir : Nat) (name : String) (ino : Nat) (T : inode)
    (hT : dfs_getInode s ino = some T) :
    dremove s dir name ino true =
      if T.st_nlink = 0 then none
      else if 2 < T.st_nlink then some (EEXIST, s)
      else some (0, fs_modify
        (fs_modify (fs_modify s dir (fun d => { d with st_nlink := nlink_dec d.st_nlink }))
          ino (fun i => { i with i_removed := true }))
        dir (fun d => dfs_dirRemove d name)) := by
  unfold dremove
  rw [hT]
  simp

/-- C10: for every parent directory P and every target inode T resolved for the number
found under a name: rmdir (`dremove` with `rmdir = true`) fails with `EEXIST` if and only
if the link count of T is greater than 2; when it fails the inode table, hence the entry
list and link count of P and the link count and removed flag of T, is unchanged; when it
succeeds the link count of P is decremented by one (in `nlink_t` arithmetic, and exactly
when the count was positive), T is flagged removed and the entry list of P is the one
`dfs_dirRemove` leaves for the name, that is the list with the first entry that
`dfs_dirLookup` matches against the name erased; and it does succeed when the link count
of T is 1 or 2. -/
theorem C10_rmdir_link_count (s : fs) (dir : Nat) (name : String) (ino : Nat)
    (P T : inode) (hP : s dir = some P) (hT : dfs_getInode s ino = some T) :
    ((∃ s', dremove s dir name ino true = some (EEXIST, s')) ↔ 2 < T.st_nlink) ∧
      (∀ s', dremove s dir name ino true = some (EEXIST, s') → s' = s) ∧
      (∀ s', dremove s dir name ino true = some (0, s') →
        ∃ P' T', s' dir = some P' ∧ s' ino = some T' ∧
          (P'.st_nlink + 1) % 2 ^ 64 = P.st_nlink % 2 ^ 64 ∧
          (0 < P.st_nlink → P.st_nlink < 2 ^ 64 → P'.st_nlink + 1 = P.st_nlink) ∧
          T'.i_removed = true ∧ P'.i_dirent = (dfs_dirRemove P name).i_dirent ∧
          P'.i_dirent = P.i_dirent.eraseP
            (fun e => decide (name.length = e.di_size ∧ name = e.di_name))) ∧
      (0 < T.st_nlink → T.st_nlink ≤ 2 →
        ∃ s', dremove s dir name ino true = some (0, s')) := by
  rw [dremove_rmdir_eq s dir name ino T hT]
  have hT' : s ino = some T := hT
  have hne : EEXIST ≠ 0 := by decide
  by_cases h0 : T.st_nlink = 0
  · rw [if_pos h0]
    refine ⟨⟨?_, ?_⟩, ?_, ?_, ?_⟩
    · rintro ⟨s', hs'⟩
      cases hs'
    · intro h
      omega
    · intro s' hs'
      cases hs'
    · intro s' hs'
      cases hs'
    · intro h
      omega
  · rw [if_neg h0]
    by_cases h2 : 2 < T.st_nlink
    · rw [if_pos h2]
      refine ⟨⟨fun _ => h2, fun _ => ⟨s, rfl⟩⟩, ?_, ?_, ?_⟩
      · intro s' hs'
        simp only [Option.some.injEq, Prod.mk.injEq] at hs'
        exact hs'.2.symm
      · intro s' hs'
        simp only [Option.some.injEq, Prod.mk.injEq] at hs'
        exact absurd hs'.1 hne
      · intro _ h
        omega
    · rw [if_neg h2]
      refine ⟨⟨?_, fun h => absurd h h2⟩, ?_, ?_, fun _ _ => ⟨_, rfl⟩⟩
      · rintro ⟨s', hs'⟩
        simp only [Option.some.injEq, Prod.mk.injEq] at hs'
        exact absurd hs'.1.symm hne
      · intro s' hs'
        simp only [Option.some.injEq, Prod.mk.injEq] at hs'
        exact absurd hs'.1.symm hne
      · intro s' hs'
        simp only [Option.some.injEq, Prod.mk.injEq, true_and] at hs'
        subst hs'
        by_cases hdi : dir = ino
        · subst hdi
          have hQ : ∃ Q : inode,
              Q = { P with st_nlink := nlink_dec P.st_nlink, i_removed := true } :=
            ⟨_, rfl⟩
          obtain ⟨Q, hQ⟩ := hQ
          refine ⟨dfs_dirRemove Q name, dfs_dirRemove Q name, ?_, ?_, ?_⟩ <;> subst hQ
          · simp [fs_modify_apply, hP]
          · simp [fs_modify_apply, hP]
          · refine ⟨?_, ?_, ?_, ?_, ?_⟩
            · exact nlink_dec_succ P.st_nlink
            · exact nlink_dec_of_pos P.st_nlink
            · simp [dfs_dirRemove]
            · simp [dfs_dirRemove]
            · exact dirRemoveFrom_eq_eraseP_match name P.i_dirent
        · have hid : ino ≠ dir := fun h => hdi h.symm
          refine ⟨dfs_dirRemove ({ P with st_nlink := nlink_dec P.st_nlink } : inode) name,
            ({ T with i_removed := true } : inode), ?_, ?_, ?_⟩
          · simp [fs_modify_apply, hP, hdi]
          · simp [fs_modify_apply, hT', hid]
          · refine ⟨?_, ?_, ?_, ?_, ?_⟩
            · exact nlink_dec_succ P.st_nlink
            · exact nlink_dec_of_pos P.st_nlink
            · simp [dfs_dirRemove]
            · simp [dfs_dirRemove]
            · exact dirRemoveFrom_eq_eraseP_match name P.i_dirent

/-- Witness of C10: in the small tree, rmdir of `c` (inode 3, link count 3) from the
root. -/
theorem C10_rmdir_link_count_witness :
    treeFs 1 = some treeRoot ∧ dfs_getInode treeFs 3 = some treeC ∧
      ((∃ s', dremove treeFs 1 "c" 3 true = some (EEXIST, s')) ↔ 2 < treeC.st_nlink) :=
  ⟨rfl, rfl, (C10_rmdir_link_count treeFs 1 "c" 3 treeRoot treeC rfl rfl).1⟩

/-! ## Decomposition of a write into pages -/

theorem writeLoop_spec (B off spage : Nat) (hB : 0 < B) :
    ∀ (fuel page woff wsize : Nat), wsize ≤ fuel → spage ≤ page →
      (0 < wsize → (if page = spage then off % B else 0) + page * B = off + woff) →
      ∃ calls, writeLoop B off spage fuel page woff wsize = some calls ∧
        (calls.map addPageCall.psize).sum = wsize ∧
        ∀ i c, calls[i]? = some c →
          c.pg = page + i ∧
          c.poffset = (if page + i = spage then off % B else 0) ∧
          1 ≤ c.psize ∧ c.poffset + c.psize ≤ B ∧
          (i + 1 < calls.length → c.psize = B - c.poffset) ∧
          c.woff = woff + ((calls.take i).map addPageCall.psize).sum ∧
          c.pg * B + c.poffset = off + c.woff := by
  intro fuel
  induction fuel with
  | zero =>
    intro page woff wsize hfuel _ _
    have hw : wsize = 0 := by omega
    subst hw
    refine ⟨[], by simp [writeLoop], by simp, ?_⟩
    intro i c hc
    simp at hc
  | succ f ih =>
    intro page woff wsize hfuel hpage hinv
    cases wsize with
    | zero =>
      refine ⟨[], by simp [writeLoop], by simp, ?_⟩
      intro i c hc
      simp at hc
    | succ w =>
      have hmod : off % B < B := Nat.mod_lt _ hB
      obtain ⟨poffset, hpo⟩ : ∃ x, x = (if page = spage then off % B else 0) := ⟨_, rfl⟩
      obtain ⟨psize0, hps0⟩ :
          ∃ x, x = (if page = spage then B - poffset else B) := ⟨_, rfl⟩
      obtain ⟨psize, hps⟩ : ∃ x, x = (if psize0 > w + 1 then w + 1 else psize0) := ⟨_, rfl⟩
      have hpoB : poffset < B := by
        rw [hpo]
        split <;> omega
      have hps0' : psize0 = B - poffset := by
        rw [hps0]
        split
        · rfl
        · rename_i hne
          rw [hpo, if_neg hne]
          rfl
      have hps1 : 1 ≤ psize := by
        rw [hps]
        split <;> omega
      have hpsle : psize ≤ w + 1 := by
        rw [hps]
        split <;> omega
      have hpsB : poffset + psize ≤ B := by
        rw [hps]
        split <;> omega
      have hfull : 0 < w + 1 - psize → psize = B - poffset := by
        intro hpos
        rw [hps] at hpos ⊢
        split at hpos
        · omega
        · rename_i hle
          rw [if_neg hle]
          exact hps0'
      have hinv0 : poffset + page * B = off + woff := by
        rw [hpo]
        exact hinv (Nat.succ_pos w)
      have hstep : writeLoop B off spage (f + 1) page woff (w + 1) =
          (writeLoop B off spage f (page + 1) (woff + psize) (w + 1 - psize)).map
            (fun rest => { pg := page, poffset := poffset, psize := psize,
                           woff := woff } :: rest) := by
        rw [hps, hps0, hpo]
        rfl
      have hnext : 0 < w + 1 - psize →
          (if page + 1 = spage then off % B else 0) + (page + 1) * B =
            off + (woff + psize) := by
        intro hpos
        have hne : page + 1 ≠ spage := by omega
        have hfl := hfull hpos
        have hmul : (page + 1) * B = page * B + B := by ring
        rw [if_neg hne, hmul]
        omega
      obtain ⟨rest, hrest, hsum, hall⟩ :=
        ih (page + 1) (woff + psize) (w + 1 - psize) (by omega) (by omega) hnext
      refine ⟨{ pg := page, poffset := poffset, psize := psize, woff := woff } :: rest,
        ?_, ?_, ?_⟩
      · rw [hstep, hrest]
        rfl
      · rw [List.map_cons, List.sum_cons, hsum]
        show psize + (w + 1 - psize) = w + 1
        omega
      · intro i c hc
        cases i with
        | zero =>
          simp only [List.getElem?_cons_zero, Option.some.injEq] at hc
          subst hc
          refine ⟨rfl, ?_, hps1, hpsB, ?_, ?_, ?_⟩
          · show poffset = (if page + 0 = spage then off % B else 0)
            rw [Nat.add_zero]
            exact hpo
          · intro hlen
            apply hfull
            cases rest with
            | nil => simp at hlen
            | cons c1 r1 =>
              have h1 := (hall 0 c1 (by simp)).2.2.1
              rw [List.map_cons, List.sum_cons] at hsum
              omega
          · simp
          · show page * B + poffset = off + woff
            omega
        | succ j =>
          simp only [List.getElem?_cons_succ] at hc
          obtain ⟨hpg, hpoff, hp1, hpB, hfl, hwo, hcover⟩ := hall j c hc
          have hidx : page + (j + 1) = page + 1 + j := by omega
          refine ⟨by omega, ?_, hp1, hpB, ?_, ?_, hcover⟩
          · rw [hidx]
            exact hpoff
          · intro hlen
            apply hfl
            simp only [List.length_cons] at hlen
            omega
          · rw [hwo, List.take_succ_cons, List.map_cons, List.sum_cons]
            show woff + psize + _ = woff + (psize + _)
            omega

theorem writeLoop_zero (B off spage fuel page woff : Nat) :
    writeLoop B off spage fuel page woff 0 = some [] := by
  cases fuel <;> rfl

theorem writeLoop_fuel_mono (B off spage : Nat) :
    ∀ (f f' page woff wsize : Nat) (calls : List addPageCall), f ≤ f' →
      writeLoop B off spage f page woff wsize = some calls →
      writeLoop B off spage f' page woff wsize = some calls := by
  intro f
  induction f with
  | zero =>
    intro f' page woff wsize calls _ h
    cases wsize with
    | zero =>
      rw [writeLoop_zero] at h ⊢
      exact h
    | succ w => simp [writeLoop] at h
  | succ g ih =>
    intro f' page woff wsize calls hle h
    cases wsize with
    | zero =>
      rw [writeLoop_zero] at h ⊢
      exact h
    | succ w =>
      obtain ⟨g', hg'⟩ : ∃ g', f' = g' + 1 := ⟨f' - 1, by omega⟩
      subst hg'
      simp only [writeLoop, Option.map_eq_some'] at h ⊢
      obtain ⟨rest, hrest, hcons⟩ := h
      exact ⟨rest, ih g' _ _ _ rest (by omega) hrest, hcons⟩

/-- With a positive block size the write loop ends within `size` iterations. -/
theorem dfs_write_calls_total (B off size : Nat) (hB : 0 < B) :
    ∃ calls, dfs_write_calls B off size = some calls ∧
      (calls.map addPageCall.psize).sum = size := by
  obtain ⟨calls, hcalls, hsum, _⟩ :=
    writeLoop_spec B off (off / B) hB size (off / B) 0 size (Nat.le_refl _) (Nat.le_refl _)
      (by
        intro _
        rw [if_pos rfl, Nat.add_zero]
        exact Nat.mod_add_div' off B)
  exact ⟨calls, hcalls, hsum⟩

/-- The decomposition of a write of 12 bytes at offset 5 with blocks of 8 bytes. -/
theorem dfs_write_calls_example :
    dfs_write_calls 8 5 12 = some [⟨0, 5, 3, 0⟩, ⟨1, 0, 8, 3⟩, ⟨2, 0, 1, 11⟩] := by
  decide

/-- C9: for every offset off, length size and block size B > 0, `dfs_write` issues a
finite sequence of `dfs_addPage` calls (the loop ends within `size` iterations) with:
page `off / B + i` for the i-th call; offset in the page `off mod B` for the first call
and 0 for the others; every length at least 1 and offset plus length at most B; every
call other than the first and the last of length B; buffer offset the sum of the earlier
lengths; `page * B + poffset = off + woff`; and lengths that sum to `size`.  The loop
yields the same calls whatever bound of at least `size` iterations it is given. -/
theorem C9_write_decomposition (B off size : Nat) (hB : 0 < B) :
    ∃ calls, dfs_write_calls B off size = some calls ∧
      (∀ fuel, size ≤ fuel →
        writeLoop B off (off / B) fuel (off / B) 0 size = some calls) ∧
      (calls.map addPageCall.psize).sum = size ∧
      ∀ i c, calls[i]? = some c →
        c.pg = off / B + i ∧
        c.poffset = (if i = 0 then off % B else 0) ∧
        1 ≤ c.psize ∧ c.poffset + c.psize ≤ B ∧
        (0 < i → i + 1 < calls.length → c.psize = B) ∧
        c.woff = ((calls.take i).map addPageCall.psize).sum ∧
        c.pg * B + c.poffset = off + c.woff := by
  obtain ⟨calls, hcalls, hsum, hall⟩ :=
    writeLoop_spec B off (off / B) hB size (off / B) 0 size (Nat.le_refl _) (Nat.le_refl _)
      (by
        intro _
        rw [if_pos rfl, Nat.add_zero]
        exact Nat.mod_add_div' off B)
  refine ⟨calls, hcalls,
    fun fuel hfuel => writeLoop_fuel_mono B off (off / B) size fuel _ _ _ calls hfuel hcalls,
    hsum, ?_⟩
  intro i c hc
  obtain ⟨hpg, hpoff, hp1, hpB, hfl, hwo, hcover⟩ := hall i c hc
  have hcond : (off / B + i = off / B) ↔ i = 0 := by omega
  have hpoff' : c.poffset = (if i = 0 then off % B else 0) := by
    rw [hpoff]
    by_cases hi : i = 0
    · rw [if_pos hi, if_pos (hcond.mpr hi)]
    · rw [if_neg hi, if_neg (fun h => hi (hcond.mp h))]
  refine ⟨hpg, hpoff', hp1, hpB, ?_, ?_, hcover⟩
  · intro hi hlen
    have h0 : c.poffset = 0 := by
      rw [hpoff', if_neg (by omega)]
    rw [hfl hlen, h0]
    rfl
  · rw [hwo, Nat.zero_add]

/-- Witness of C9: a write of 10000 bytes at offset 5000 with blocks of 4096 bytes. -/
theorem C9_write_decomposition_witness :
    0 < 4096 ∧ ∃ calls, dfs_write_calls 4096 5000 10000 = some calls ∧
      (∀ fuel, 10000 ≤ fuel →
        writeLoop 4096 5000 (5000 / 4096) fuel (5000 / 4096) 0 10000 = some calls) ∧
      (calls.map addPageCall.psize).sum = 10000 ∧
      ∀ i c, calls[i]? = some c →
        c.pg = 5000 / 4096 + i ∧
        c.poffset = (if i = 0 then 5000 % 4096 else 0) ∧
        1 ≤ c.psize ∧ c.poffset + c.psize ≤ 4096 ∧
        (0 < i → i + 1 < calls.length → c.psize = 4096) ∧
        c.woff = ((calls.take i).map addPageCall.psize).sum ∧
        c.pg * 4096 + c.poffset = 5000 + c.woff :=
  ⟨by decide, C9_write_decomposition 4096 5000 10000 (by decide)⟩

/-! ## Link counts in reachable states -/

theorem fs_modify_modify (s : fs) (p : Nat) (f g : inode → inode) :
    fs_modify (fs_modify s p f) p g = fs_modify s p (fun d => g (f d)) := by
  funext k
  simp only [fs_modify_apply]
  by_cases hk : k = p
  · subst hk
    cases s k <;> simp
  · simp [hk]

theorem S_ISDIR_mask (mode : Nat) : S_ISDIR (mode &&& S_IFMT) = S_ISDIR mode := by
  have hmask : S_IFMT &&& S_IFMT = S_IFMT := by decide
  unfold S_ISDIR
  rw [Nat.land_assoc, hmask]

theorem subdirCount_cons (e : dirent) (l : List dirent) :
    subdirCount (e :: l) = (if S_ISDIR e.di_mode = true then 1 else 0) + subdirCount l := by
  unfold subdirCount
  by_cases h : S_ISDIR e.di_mode = true
  · simp only [List.filter_cons, h, if_true, List.length_cons]
    omega
  · have hf : S_ISDIR e.di_mode = false := by simpa using h
    simp [List.filter_cons, hf]

theorem subdirCount_le_length (l : List dirent) : subdirCount l ≤ l.length :=
  List.length_filter_le _ l

theorem subdirCount_pos (l : List dirent) (h : ∃ e ∈ l, S_ISDIR e.di_mode = true) :
    0 < subdirCount l := by
  obtain ⟨e, he, hdir⟩ := h
  exact List.length_pos_of_mem (List.mem_filter.mpr ⟨he, hdir⟩)

theorem linkCountInv_store (s : fs) (p : Nat) (v : inode) (hs : linkCountInv s)
    (hv : S_ISDIR v.st_mode = true → v.st_nlink = (2 + subdirCount v.i_dirent) % 2 ^ 64) :
    linkCountInv (fs_store s p v) := by
  intro k d hk hdir
  rw [fs_store_apply] at hk
  by_cases hkp : k = p
  · rw [if_pos hkp] at hk
    cases hk
    exact hv hdir
  · rw [if_neg hkp] at hk
    exact hs k d hk hdir

theorem linkCountInv_modify (s : fs) (p : Nat) (f : inode → inode) (hs : linkCountInv s)
    (hf : ∀ d, s p = some d → S_ISDIR (f d).st_mode = true →
      (f d).st_nlink = (2 + subdirCount (f d).i_dirent) % 2 ^ 64) :
    linkCountInv (fs_modify s p f) := by
  intro k d hk hdir
  rw [fs_modify_apply] at hk
  by_cases hkp : k = p
  · rw [if_pos hkp] at hk
    cases hp : s p with
    | none => rw [hp] at hk; cases hk
    | some d0 =>
      rw [hp] at hk
      cases hk
      exact hf d0 hp hdir
  · rw [if_neg hkp] at hk
    exact hs k d hk hdir

theorem nlink_inc_inv (c n : Nat) (hn : n = (2 + c) % 2 ^ 64) :
    nlink_inc n = (2 + (1 + c)) % 2 ^ 64 := by
  unfold nlink_inc NLINK_MOD
  norm_num at hn ⊢
  omega

theorem linkCountInv_create (s s' : fs) (newino parent : Nat) (name : String)
    (mode err : Nat) (hs : linkCountInv s)
    (hr : create s newino parent name mode = some (err, s')) : linkCountInv s' := by
  unfold create at hr
  cases hP : dfs_getInode s parent with
  | none =>
    rw [hP] at hr
    cases hr
    exact hs
  | some P =>
    rw [hP] at hr
    simp only [dfs_inodeInit] at hr
    split at hr
    · cases hr
    · cases hr
      have h1 : linkCountInv (fs_store s newino
          { st_ino := newino, st_mode := mode, st_nlink := if S_ISDIR mode = true then 2 else 1,
            st_size := 0, i_dirent := [], i_removed := false }) := by
        apply linkCountInv_store s newino _ hs
        intro hdir
        show (if S_ISDIR mode = true then 2 else 1) = (2 + subdirCount []) % 2 ^ 64
        rw [if_pos hdir]
        rfl
      by_cases hm : S_ISDIR mode = true
      · rw [if_pos hm, fs_modify_modify]
        apply linkCountInv_modify _ _ _ h1
        intro d hd hdir
        have hd0 := h1 parent d hd hdir
        show nlink_inc d.st_nlink = (2 + subdirCount (_ :: d.i_dirent)) % 2 ^ 64
        rw [subdirCount_cons]
        have he : S_ISDIR (mode &&& S_IFMT) = true := by rw [S_ISDIR_mask]; exact hm
        rw [if_pos he]
        exact nlink_inc_inv _ _ hd0
      · rw [if_neg hm]
        apply linkCountInv_modify _ _ _ h1
        intro d hd hdir
        have hd0 := h1 parent d hd hdir
        show d.st_nlink = (2 + subdirCount (_ :: d.i_dirent)) % 2 ^ 64
        rw [subdirCount_cons]
        have he : ¬ S_ISDIR (mode &&& S_IFMT) = true := by rw [S_ISDIR_mask]; exact hm
        rw [if_neg he, Nat.zero_add]
        exact hd0

theorem linkCountInv_of_createReachable (s : fs) (h : createReachable s) :
    linkCountInv s := by
  induction h with
  | init s h0 =>
    intro k d hk hdir
    obtain ⟨hnil, hn⟩ := h0 k d hk
    rw [hnil, hn hdir]
    rfl
  | step s s' newino parent name mode _ _ hcreate ih =>
    exact linkCountInv_create s s' newino parent name mode 0 ih hcreate

theorem createReachable_rootFs : createReachable rootFs := by
  apply createReachable.init
  intro k i hk
  unfold rootFs at hk
  split at hk
  · cases hk
    exact ⟨rfl, fun _ => rfl⟩
  · cases hk

theorem createReachable_fsMkdirC : createReachable fsMkdirC :=
  createReachable.step fsMkdirA fsMkdirC 3 2 "c" S_IFDIR
    (createReachable.step rootFs fsMkdirA 2 1 "a" S_IFDIR createReachable_rootFs rfl rfl)
    rfl rfl

/-! ## Removal of a directory that still holds entries -/

/-- C11 as stated fails: after `mkdir a`, `mkdir a/c` and the creation of the regular
file `a/c/f` from an empty root, the directory `a/c` (inode 3) holds an entry, and rmdir
of `c` in `a` (inode 2) replies success and flags inode 3 removed. -/
theorem C11_rmdir_nonempty_counterexample :
    createReachable fsCreateF ∧
      (∃ T, fsCreateF 3 = some T ∧ T.i_dirent = [⟨4, "f", 1, S_IFREG⟩]) ∧
      ∃ s' T', dfs_remove 0 fsCreateF 2 "c" true = some (0, s') ∧
        s' 3 = some T' ∧ T'.i_removed = true :=
  ⟨createReachable.step fsMkdirC fsCreateF 4 3 "f" S_IFREG createReachable_fsMkdirC rfl rfl,
    ⟨_, rfl, rfl⟩, _, _, rfl, rfl, rfl⟩

/-- C11, amended: in a state reached by create/mkdir operations from empty directories,
for every directory `/a/c` that holds at least one entry of directory type (and fewer
than 2^64 - 2 entries), rmdir of `/a/c` reports NotEmpty (`EEXIST`) and leaves the inode
table, hence `/a/c` and its parent, unchanged. -/
theorem C11_rmdir_with_subdirectory (DFS_INVALID_INODE : Nat) (s : fs) (parent : Nat)
    (name : String) (P T : inode) (hreach : createReachable s)
    (hP : dfs_getInode s parent = some P) (hPdir : S_ISDIR P.st_mode = true)
    (hfound : dfs_dirLookup DFS_INVALID_INODE P name ≠ DFS_INVALID_INODE)
    (hT : dfs_getInode s (dfs_dirLookup DFS_INVALID_INODE P name) = some T)
    (hTdir : S_ISDIR T.st_mode = true)
    (hsub : ∃ e ∈ T.i_dirent, S_ISDIR e.di_mode = true)
    (hbound : T.i_dirent.length + 2 < 2 ^ 64) :
    dfs_remove DFS_INVALID_INODE s parent name true = some (EEXIST, s) := by
  have hinv := linkCountInv_of_createReachable s hreach _ T hT hTdir
  have hpos := subdirCount_pos T.i_dirent hsub
  have hle := subdirCount_le_length T.i_dirent
  have hlink : 2 < T.st_nlink := by
    rw [hinv, Nat.mod_eq_of_lt (by omega)]
    omega
  unfold dfs_remove
  rw [hP]
  simp only [hPdir, Bool.not_true, Bool.false_eq_true, if_false, if_neg hfound]
  rw [dremove_rmdir_eq s parent name _ T hT, if_neg (by omega), if_pos hlink]

/-- Witness of C11: after `mkdir a`, `mkdir a/c` and `mkdir a/c/d`, rmdir of `c`. -/
theorem C11_rmdir_with_subdirectory_witness :
    dfs_remove 0 fsMkdirD 2 "c" true = some (EEXIST, fsMkdirD) :=
  C11_rmdir_with_subdirectory 0 fsMkdirD 2 "c" _ _
    (createReachable.step fsMkdirC fsMkdirD 4 3 "d" S_IFDIR createReachable_fsMkdirC rfl rfl)
    rfl rfl (by decide) rfl rfl ⟨⟨4, "d", 1, S_IFDIR⟩, by decide, by decide⟩ (by decide)

/-! ## Creation -/

theorem nlink_inc_mod (n : Nat) : nlink_inc n = (n + 1) % 2 ^ 64 := rfl

theorem nlink_inc_of_lt (n : Nat) (h : n + 1 < 2 ^ 64) : nlink_inc n = n + 1 := by
  rw [nlink_inc_mod]
  exact Nat.mod_eq_of_lt h

/-- C12: for every resolvable parent directory P, name N and mode, with `newino` the
unused number the new inode gets: `create` returns 0; P gets exactly one new entry, at
the head, binding N to `newino` with the type bits `mode & S_IFMT`, its other entries
unchanged; the link count of P is raised by one when the mode is a directory (in
`nlink_t` arithmetic, and exactly when the count is below the maximum) and unchanged
otherwise; the new inode is in the table with its number and mode and no entries; every
other inode is unchanged.  When P cannot be resolved `create` returns `ENOENT` and the
table is unchanged. -/
theorem C12_create_entry_and_link_count (s : fs) (newino parent : Nat) (name : String)
    (mode : Nat) :
    (∀ P, dfs_getInode s parent = some P → S_ISDIR P.st_mode = true → s newino = none →
      ∃ s' P' I, create s newino parent name mode = some (0, s') ∧
        s' parent = some P' ∧
        P'.i_dirent = ⟨newino, name, name.length, mode &&& S_IFMT⟩ :: P.i_dirent ∧
        (S_ISDIR mode = true → P'.st_nlink = (P.st_nlink + 1) % 2 ^ 64 ∧
          (P.st_nlink + 1 < 2 ^ 64 → P'.st_nlink = P.st_nlink + 1)) ∧
        (S_ISDIR mode = false → P'.st_nlink = P.st_nlink) ∧
        s' newino = some I ∧ I.st_ino = newino ∧ I.st_mode = mode ∧ I.i_dirent = [] ∧
        (∀ k, k ≠ parent → k ≠ newino → s' k = s k)) ∧
      (dfs_getInode s parent = none →
        create s newino parent name mode = some (ENOENT, s)) := by
  constructor
  · intro P hP hdir hfresh
    have hP' : s parent = some P := hP
    have hpn : parent ≠ newino := by
      intro h
      rw [h, hfresh] at hP'
      cases hP'
    have hnp : newino ≠ parent := fun h => hpn h.symm
    unfold create
    rw [hP]
    simp only [hdir, Bool.not_true, Bool.false_eq_true, if_false, dfs_inodeInit]
    by_cases hm : S_ISDIR mode = true
    · rw [if_pos hm, fs_modify_modify]
      refine ⟨_, { dfs_dirAdd P newino mode name with st_nlink := nlink_inc P.st_nlink },
        (dfs_inodeInit s newino mode).1, rfl, ?_, rfl, ?_, ?_, ?_, rfl, rfl, rfl, ?_⟩
      · simp [fs_modify_apply, fs_store_apply, hpn, hP']
        rfl
      · intro _
        exact ⟨nlink_inc_mod P.st_nlink, nlink_inc_of_lt P.st_nlink⟩
      · intro hf
        rw [hm] at hf
        cases hf
      · simp [fs_modify_apply, fs_store_apply, hnp]
        rfl
      · intro k hk1 hk2
        simp [fs_modify_apply, fs_store_apply, hk1, hk2]
    · rw [if_neg hm]
      refine ⟨_, dfs_dirAdd P newino mode name, (dfs_inodeInit s newino mode).1, rfl, ?_,
        rfl, ?_, ?_, ?_, rfl, rfl, rfl, ?_⟩
      · simp [fs_modify_apply, fs_store_apply, hpn, hP']
      · intro hm'
        exact absurd hm' hm
      · intro _
        rfl
      · simp [fs_modify_apply, fs_store_apply, hnp]
        rfl
      · intro k hk1 hk2
        simp [fs_modify_apply, fs_store_apply, hk1, hk2]
  · intro hP
    unfold create
    rw [hP]

/-- Witness of C12: `mkdir c` in the fresh directory 2 (link count 2) of the table
reached by `mkdir a` makes its link count 3. -/
theorem C12_create_entry_and_link_count_witness :
    ∃ P, dfs_getInode fsMkdirA 2 = some P ∧ S_ISDIR P.st_mode = true ∧ P.st_nlink = 2 ∧
      fsMkdirA 3 = none ∧
      ∃ s' P' I, create fsMkdirA 3 2 "c" S_IFDIR = some (0, s') ∧
        s' 2 = some P' ∧
        P'.i_dirent = ⟨3, "c", "c".length, S_IFDIR &&& S_IFMT⟩ :: P.i_dirent ∧
        (S_ISDIR S_IFDIR = true → P'.st_nlink = (P.st_nlink + 1) % 2 ^ 64 ∧
          (P.st_nlink + 1 < 2 ^ 64 → P'.st_nlink = P.st_nlink + 1)) ∧
        (S_ISDIR S_IFDIR = false → P'.st_nlink = P.st_nlink) ∧
        s' 3 = some I ∧ I.st_ino = 3 ∧ I.st_mode = S_IFDIR ∧ I.i_dirent = [] ∧
        (∀ k, k ≠ 2 → k ≠ 3 → s' k = fsMkdirA k) :=
  ⟨_, rfl, rfl, rfl, rfl,
    (C12_create_entry_and_link_count fsMkdirA 3 2 "c" S_IFDIR).1 _ rfl rfl rfl⟩

/-! ## Truncation -/

/-- C13: for every regular file inode with recorded size s and every requested size n,
`dfs_truncate` sets the recorded size to n and leaves the other fields, and calls
`dfs_truncPages`, with the argument n, if and only if n < s; when n >= s it makes no page
store call at all. -/
theorem C13_truncate (i : inode) (n : Nat) (hreg : S_ISREG i.st_mode = true) :
    ∃ i' calls, dfs_truncate i n = some (i', calls) ∧
      i' = { i with st_size := n } ∧
      (n < i.st_size → calls = [pageStoreCall.truncPages n]) ∧
      (i.st_size ≤ n → calls = []) ∧
      (pageStoreCall.truncPages n ∈ calls ↔ n < i.st_size) := by
  unfold dfs_truncate
  simp only [hreg, Bool.not_true, Bool.false_eq_true, if_false]
  refine ⟨_, _, rfl, rfl, ?_, ?_, ?_⟩
  · intro h
    rw [if_pos h]
  · intro h
    rw [if_neg (by omega)]
  · by_cases h : n < i.st_size
    · rw [if_pos h]
      simp [h]
    · rw [if_neg h]
      simp [h]

/-- Witness of C13: truncating a file of 10 bytes to 4 bytes. -/
theorem C13_truncate_witness :
    S_ISREG ({ sampleFile 5 1 with st_size := 10 } : inode).st_mode = true ∧
      ∃ i' calls, dfs_truncate { sampleFile 5 1 with st_size := 10 } 4 = some (i', calls) ∧
        i' = { ({ sampleFile 5 1 with st_size := 10 } : inode) with st_size := 4 } ∧
        (4 < ({ sampleFile 5 1 with st_size := 10 } : inode).st_size →
          calls = [pageStoreCall.truncPages 4]) ∧
        (({ sampleFile 5 1 with st_size := 10 } : inode).st_size ≤ 4 → calls = []) ∧
        (pageStoreCall.truncPages 4 ∈ calls ↔
          4 < ({ sampleFile 5 1 with st_size := 10 } : inode).st_size) :=
  ⟨by decide, C13_truncate { sampleFile 5 1 with st_size := 10 } 4 (by decide)⟩

/-! ## Rename that replies an error -/

/-- C14, evaluated on the code (with `DFS_INVALID_INODE = 0`): in `danglingFs`, renaming
`x` of directory 1, whose inode 9 does not resolve, onto `g` of directory 2 replies
`ENOENT`, yet the replaced target is already unlinked: directory 2 has lost its entry
`g`, and inode 5 has the link count 0 and is flagged removed. -/
theorem C14_rename_error_not_atomic :
    ∃ s' T T' F F', dfs_rename 0 danglingFs 1 "x" 2 "g" = some (ENOENT, s') ∧
      danglingFs 2 = some T ∧ s' 2 = some T' ∧
      T.i_dirent = [⟨5, "g", 1, S_IFREG⟩] ∧ T'.i_dirent = [] ∧
      danglingFs 5 = some F ∧ s' 5 = some F' ∧
      F.st_nlink = 1 ∧ F.i_removed = false ∧ F'.st_nlink = 0 ∧ F'.i_removed = true :=
  ⟨_, _, _, _, _, rfl, rfl, rfl, rfl, rfl, rfl, rfl, rfl, rfl, by decide, rfl⟩

/-! ## Lock operations -/

theorem renameLockedTraced_snd (INV : Nat) (s : fs) (parent : Nat) (name : String)
    (newparent : Nat) (newname : String) (sdir : inode) (tdir : Option Nat) :
    (renameLockedTraced INV s parent name newparent newname sdir tdir).2 =
      renameLocked INV s parent name newparent newname sdir tdir := by
  unfold renameLockedTraced renameLocked
  dsimp only
  by_cases h1 : dfs_dirLookup INV sdir name = INV
  · rw [if_pos h1, if_pos h1]
  · rw [if_neg h1, if_neg h1]
    cases h2 : dfs_getInode s (tdir.getD parent) with
    | none => rfl
    | some td =>
      dsimp only
      cases h3 : renameDropTarget INV s (tdir.getD parent) newname
          (dfs_dirLookup INV td newname) with
      | none => rfl
      | some s1 =>
        dsimp only
        by_cases h4 : parent ≠ newparent
        · rw [if_pos h4, if_pos h4]
          cases h5 : dfs_getInode s1 (dfs_dirLookup INV sdir name) with
          | none => rfl
          | some inode =>
            dsimp only
            by_cases h6 : S_ISDIR inode.st_mode = true
            · rw [if_pos h6, if_pos h6]
              split
              · rfl
              · split <;> rfl
            · rw [if_neg h6, if_neg h6]
        · rw [if_neg h4, if_neg h4]

theorem renameFromSdirTraced_snd (INV : Nat) (s : fs) (parent : Nat) (name : String)
    (newparent : Nat) (newname : String) (tdir : Option Nat) :
    (renameFromSdirTraced INV s parent name newparent newname tdir).2 =
      renameFromSdir INV s parent name newparent newname tdir := by
  unfold renameFromSdirTraced renameFromSdir afterLocks
  cases h1 : dfs_getInode s parent with
  | none => rfl
  | some sdir =>
    dsimp only
    by_cases h2 : (!S_ISDIR sdir.st_mode) = true
    · rw [if_pos h2, if_pos h2]
    · rw [if_neg h2, if_neg h2]
      by_cases h3 : parent < newparent
      · rw [if_pos h3, if_pos h3]
        cases h4 : dfs_getInode s newparent with
        | none => rfl
        | some td =>
          dsimp only
          by_cases h5 : (!S_ISDIR td.st_mode) = true
          · rw [if_pos h5, if_pos h5]
          · rw [if_neg h5, if_neg h5]
            exact renameLockedTraced_snd INV s parent name newparent newname sdir _
      · rw [if_neg h3, if_neg h3]
        exact renameLockedTraced_snd INV s parent name newparent newname sdir tdir

/-- The instrumented rename gives the reply and the inode table of `dfs_rename`. -/
theorem dfs_rename_traced_snd (INV : Nat) (s : fs) (parent : Nat) (name : String)
    (newparent : Nat) (newname : String) :
    (dfs_rename_traced INV s parent name newparent newname).2 =
      dfs_rename INV s parent name newparent newname := by
  unfold dfs_rename_traced dfs_rename afterLocks
  by_cases h1 : parent > newparent
  · rw [if_pos h1, if_pos h1]
    cases h2 : dfs_getInode s newparent with
    | none => rfl
    | some td =>
      dsimp only
      by_cases h3 : (!S_ISDIR td.st_mode) = true
      · rw [if_pos h3, if_pos h3]
      · rw [if_neg h3, if_neg h3]
        exact renameFromSdirTraced_snd INV s parent name newparent newname _
  · rw [if_neg h1, if_neg h1]
    exact renameFromSdirTraced_snd INV s parent name newparent newname none

/-- The instrumented link gives the reply and the inode table of `dfs_link`. -/
theorem dfs_link_traced_snd (s : fs) (ino newparent : Nat) (newname : String) :
    (dfs_link_traced s ino newparent newname).2 = dfs_link s ino newparent newname := by
  unfold dfs_link_traced dfs_link
  cases h1 : dfs_getInode s newparent with
  | none => rfl
  | some dir =>
    dsimp only
    by_cases h2 : (!S_ISDIR dir.st_mode) = true
    · rw [if_pos h2, if_pos h2]
    · rw [if_neg h2, if_neg h2]
      cases h3 : dfs_getInode s ino with
      | none => rfl
      | some inode =>
        dsimp only
        by_cases h4 : (!S_ISREG inode.st_mode) = true
        · rw [if_pos h4, if_pos h4]
        · rw [if_neg h4, if_neg h4]

theorem rename_trace_of_lt (INV : Nat) (s : fs) (parent : Nat) (name : String)
    (newparent : Nat) (newname : String) (hlt : parent < newparent) :
    (dfs_rename_traced INV s parent name newparent newname).1 =
        [lockEvent.gfsLock, lockEvent.gfsUnlock] ∨
      ∃ rest, (dfs_rename_traced INV s parent name newparent newname).1 =
        lockEvent.gfsLock :: lockEvent.inodeLock parent :: rest := by
  unfold dfs_rename_traced
  rw [if_neg (by omega)]
  unfold renameFromSdirTraced afterLocks
  cases h1 : dfs_getInode s parent with
  | none => exact Or.inl rfl
  | some sdir =>
    right
    dsimp only
    split
    · exact ⟨_, rfl⟩
    · cases h2 : dfs_getInode s newparent with
      | none => exact ⟨_, rfl⟩
      | some td =>
        dsimp only
        split
        · exact ⟨_, rfl⟩
        · exact ⟨_, rfl⟩

theorem rename_trace_of_gt (INV : Nat) (s : fs) (parent : Nat) (name : String)
    (newparent : Nat) (newname : String) (hgt : newparent < parent) :
    (dfs_rename_traced INV s parent name newparent newname).1 =
        [lockEvent.gfsLock, lockEvent.gfsUnlock] ∨
      ∃ rest, (dfs_rename_traced INV s parent name newparent newname).1 =
        lockEvent.gfsLock :: lockEvent.inodeLock newparent :: rest := by
  unfold dfs_rename_traced
  rw [if_pos hgt]
  cases h1 : dfs_getInode s newparent with
  | none => exact Or.inl rfl
  | some td =>
    right
    dsimp only
    split
    · exact ⟨_, rfl⟩
    · exact ⟨_, rfl⟩

theorem rename_trace_of_lt_dirs (INV : Nat) (s : fs) (parent : Nat) (name : String)
    (newparent : Nat) (newname : String) (L H : inode) (hlt : parent < newparent)
    (hL : dfs_getInode s parent = some L) (hH : dfs_getInode s newparent = some H)
    (hLdir : S_ISDIR L.st_mode = true) (hHdir : S_ISDIR H.st_mode = true) :
    ∃ rest, (dfs_rename_traced INV s parent name newparent newname).1 =
      lockEvent.gfsLock :: lockEvent.inodeLock parent :: lockEvent.inodeLock newparent ::
        rest := by
  unfold dfs_rename_traced
  rw [if_neg (by omega)]
  unfold renameFromSdirTraced afterLocks
  rw [hL]
  simp only [hLdir, hHdir, hH, Bool.not_true, Bool.false_eq_true, if_false, if_pos hlt]
  exact ⟨_, rfl⟩

theorem rename_trace_of_gt_dirs (INV : Nat) (s : fs) (parent : Nat) (name : String)
    (newparent : Nat) (newname : String) (L H : inode) (hgt : newparent < parent)
    (hL : dfs_getInode s newparent = some L) (hH : dfs_getInode s parent = some H)
    (hLdir : S_ISDIR L.st_mode = true) (hHdir : S_ISDIR H.st_mode = true) :
    ∃ rest, (dfs_rename_traced INV s parent name newparent newname).1 =
      lockEvent.gfsLock :: lockEvent.inodeLock newparent :: lockEvent.inodeLock parent ::
        rest := by
  unfold dfs_rename_traced
  rw [if_pos hgt, hL]
  simp only [hLdir, Bool.not_true, Bool.false_eq_true, if_false]
  unfold renameFromSdirTraced afterLocks
  rw [hH]
  simp only [hHdir, Bool.not_true, Bool.false_eq_true, if_false,
    if_neg (Nat.lt_asymm hgt)]
  exact ⟨_, rfl⟩

/-- In both orders of the parents, the first inode lock (if any) is on the smaller one. -/
theorem rename_trace_min_first (INV : Nat) (s : fs) (parent : Nat) (name : String)
    (newparent : Nat) (newname : String) (hne : parent ≠ newparent) :
    (dfs_rename_traced INV s parent name newparent newname).1 =
        [lockEvent.gfsLock, lockEvent.gfsUnlock] ∨
      ∃ rest, (dfs_rename_traced INV s parent name newparent newname).1 =
        lockEvent.gfsLock :: lockEvent.inodeLock (min parent newparent) :: rest := by
  rcases Nat.lt_or_gt_of_ne hne with hlt | hgt
  · rw [Nat.min_eq_left (Nat.le_of_lt hlt)]
    exact rename_trace_of_lt INV s parent name newparent newname hlt
  · rw [Nat.min_eq_right (Nat.le_of_lt hgt)]
    exact rename_trace_of_gt INV s parent name newparent newname hgt

theorem rename_trace_min_max (INV : Nat) (s : fs) (parent : Nat) (name : String)
    (newparent : Nat) (newname : String) (L H : inode) (hne : parent ≠ newparent)
    (hL : dfs_getInode s (min parent newparent) = some L)
    (hH : dfs_getInode s (max parent newparent) = some H)
    (hLdir : S_ISDIR L.st_mode = true) (hHdir : S_ISDIR H.st_mode = true) :
    ∃ rest, (dfs_rename_traced INV s parent name newparent newname).1 =
      lockEvent.gfsLock :: lockEvent.inodeLock (min parent newparent) ::
        lockEvent.inodeLock (max parent newparent) :: rest := by
  rcases Nat.lt_or_gt_of_ne hne with hlt | hgt
  · rw [Nat.min_eq_left (Nat.le_of_lt hlt)] at hL ⊢
    rw [Nat.max_eq_right (Nat.le_of_lt hlt)] at hH ⊢
    exact rename_trace_of_lt_dirs INV s parent name newparent newname L H hlt hL hH
      hLdir hHdir
  · rw [Nat.min_eq_right (Nat.le_of_lt hgt)] at hL ⊢
    rw [Nat.max_eq_left (Nat.le_of_lt hgt)] at hH ⊢
    exact rename_trace_of_gt_dirs INV s parent name newparent newname L H hgt hL hH
      hLdir hHdir

/-- C15, evaluated on the code (with `DFS_INVALID_INODE = 0`): `dfs_rename` of the name
`zzz`, which directory 1 of the sample table does not hold, replies `ENOENT` and
returns after the lock operations `dfs_lock(gfs)`, lock of inode 1, unlock of inode 1:
the registry lock is acquired once and never released. -/
theorem C15_rename_leaves_registry_locked :
    ∃ s', dfs_rename 0 sampleFs 1 "zzz" 1 "y" = some (ENOENT, s') ∧
      (dfs_rename_traced 0 sampleFs 1 "zzz" 1 "y").2 = some (ENOENT, s') ∧
      (dfs_rename_traced 0 sampleFs 1 "zzz" 1 "y").1 =
        [lockEvent.gfsLock, lockEvent.inodeLock 1, lockEvent.inodeUnlock 1] ∧
      ¬ locksBalanced (dfs_rename_traced 0 sampleFs 1 "zzz" 1 "y").1 := by
  have htr : (dfs_rename_traced 0 sampleFs 1 "zzz" 1 "y").1 =
      [lockEvent.gfsLock, lockEvent.inodeLock 1, lockEvent.inodeUnlock 1] := rfl
  refine ⟨sampleFs, rfl, rfl, htr, ?_⟩
  intro hbal
  have h1 := hbal.1
  rw [htr] at h1
  revert h1
  decide

/-- C16: for every pair of distinct parent handles passed to `dfs_rename`, the first
inode lock taken is the one on the numerically smaller handle, so every acquisition of
the lock on the larger handle comes after an acquisition of the lock on the smaller one,
whichever of the two is the source; and when both resolve to directories the trace
begins with the registry lock, the lock on the smaller and the lock on the larger handle,
also for a rename that uses the two directories in the opposite roles. -/
theorem C16_rename_lock_order (DFS_INVALID_INODE : Nat) (s : fs) (parent : Nat)
    (name : String) (newparent : Nat) (newname : String) (hne : parent ≠ newparent) :
    ((dfs_rename_traced DFS_INVALID_INODE s parent name newparent newname).1 =
          [lockEvent.gfsLock, lockEvent.gfsUnlock] ∨
        ∃ rest, (dfs_rename_traced DFS_INVALID_INODE s parent name newparent newname).1 =
          lockEvent.gfsLock :: lockEvent.inodeLock (min parent newparent) :: rest) ∧
      (∀ i : Nat,
        (dfs_rename_traced DFS_INVALID_INODE s parent name newparent newname).1[i]? =
          some (lockEvent.inodeLock (max parent newparent)) →
        ∃ j : Nat, j < i ∧
          (dfs_rename_traced DFS_INVALID_INODE s parent name newparent newname).1[j]? =
            some (lockEvent.inodeLock (min parent newparent))) ∧
      (∀ L H, dfs_getInode s (min parent newparent) = some L →
        dfs_getInode s (max parent newparent) = some H →
        S_ISDIR L.st_mode = true → S_ISDIR H.st_mode = true →
        ∀ name2 newname2, ∃ rest rest2,
          (dfs_rename_traced DFS_INVALID_INODE s parent name newparent newname).1 =
            lockEvent.gfsLock :: lockEvent.inodeLock (min parent newparent) ::
              lockEvent.inodeLock (max parent newparent) :: rest ∧
          (dfs_rename_traced DFS_INVALID_INODE s newparent name2 parent newname2).1 =
            lockEvent.gfsLock :: lockEvent.inodeLock (min parent newparent) ::
              lockEvent.inodeLock (max parent newparent) :: rest2) := by
  have hfirst := rename_trace_min_first DFS_INVALID_INODE s parent name newparent newname hne
  have hminmax : min parent newparent ≠ max parent newparent := by omega
  refine ⟨hfirst, ?_, ?_⟩
  · intro i hi
    rcases hfirst with h | ⟨rest, h⟩
    · rw [h] at hi
      match i, hi with
      | 0, hi => simp at hi
      | 1, hi => simp at hi
      | i + 2, hi => simp at hi
    · rw [h] at hi ⊢
      match i, hi with
      | 0, hi => simp at hi
      | 1, hi =>
        simp only [List.getElem?_cons_succ, List.getElem?_cons_zero, Option.some.injEq,
          lockEvent.inodeLock.injEq] at hi
        exact absurd hi hminmax
      | i + 2, _ => exact ⟨1, by omega, by simp⟩
  · intro L H hL hH hLdir hHdir name2 newname2
    obtain ⟨rest, hrest⟩ := rename_trace_min_max DFS_INVALID_INODE s parent name newparent
      newname L H hne hL hH hLdir hHdir
    have hL2 : dfs_getInode s (min newparent parent) = some L := by
      rw [Nat.min_comm]; exact hL
    have hH2 : dfs_getInode s (max newparent parent) = some H := by
      rw [Nat.max_comm]; exact hH
    obtain ⟨rest2, hrest2⟩ := rename_trace_min_max DFS_INVALID_INODE s newparent name2
      parent newname2 L H (fun h => hne h.symm) hL2 hH2 hLdir hHdir
    rw [Nat.min_comm newparent parent, Nat.max_comm newparent parent] at hrest2
    exact ⟨rest, rest2, hrest, hrest2⟩

/-- Witness of C16: renames between the directories 1 and 2 of the sample table, in both
directions, lock directory 1 before directory 2. -/
theorem C16_rename_lock_order_witness :
    (1 : Nat) ≠ 2 ∧
      ∃ rest rest2,
        (dfs_rename_traced 0 sampleFs 1 "b" 2 "g").1 =
          lockEvent.gfsLock :: lockEvent.inodeLock 1 :: lockEvent.inodeLock 2 :: rest ∧
        (dfs_rename_traced 0 sampleFs 2 "g" 1 "b").1 =
          lockEvent.gfsLock :: lockEvent.inodeLock 1 :: lockEvent.inodeLock 2 :: rest2 :=
  ⟨by decide,
    (C16_rename_lock_order 0 sampleFs 1 "b" 2 "g" (by decide)).2.2 sampleDir emptyDir
      rfl rfl (by decide) (by decide) "g" "b"⟩

theorem link_trace_parent_first (s : fs) (ino newparent : Nat) (newname : String) :
    (dfs_link_traced s ino newparent newname).1 =
        [lockEvent.gfsLock, lockEvent.gfsUnlock] ∨
      ∃ rest, (dfs_link_traced s ino newparent newname).1 =
        lockEvent.gfsLock :: lockEvent.inodeLock newparent :: rest := by
  unfold dfs_link_traced
  cases h1 : dfs_getInode s newparent with
  | none => exact Or.inl rfl
  | some dir =>
    right
    dsimp only
    split
    · exact ⟨_, rfl⟩
    · cases h2 : dfs_getInode s ino with
      | none => exact ⟨_, rfl⟩
      | some inode =>
        dsimp only
        split
        · exact ⟨_, rfl⟩
        · exact ⟨_, rfl⟩

/-- C17 as stated fails: `dfs_link` of the regular file 5 into the directory 7 takes the
lock on inode 7 first and the lock on inode 5 second, in descending order of the
numbers. -/
theorem C17_link_lock_order_counterexample :
    (dfs_link_traced lateDirFs 5 7 "h").1 =
        [lockEvent.gfsLock, lockEvent.inodeLock 7, lockEvent.inodeLock 5,
          lockEvent.inodeUnlock 7, lockEvent.inodeUnlock 5, lockEvent.gfsUnlock] ∧
      firstInodeLock (dfs_link_traced lateDirFs 5 7 "h").1 = some (max 5 7) ∧
      firstInodeLock (dfs_link_traced lateDirFs 5 7 "h").1 ≠ some (min 5 7) ∧
      ∃ s', (dfs_link_traced lateDirFs 5 7 "h").2 = some (0, s') := by
  have htr : (dfs_link_traced lateDirFs 5 7 "h").1 =
      [lockEvent.gfsLock, lockEvent.inodeLock 7, lockEvent.inodeLock 5,
        lockEvent.inodeUnlock 7, lockEvent.inodeUnlock 5, lockEvent.gfsUnlock] := rfl
  refine ⟨htr, ?_, ?_, _, rfl⟩
  · rw [htr]
    decide
  · rw [htr]
    decide

/-- C17, amended: for every call `dfs_link(ino, newparent, newname)` with
`ino != newparent`, the two inode locks are acquired in a fixed order, first the lock on
the new parent directory and then the lock on the inode being linked, whatever their
numeric identifiers: the first inode lock of the trace is on `newparent`, every
acquisition of the lock on `ino` comes after it, and when the directory and the inode
resolve the trace begins with the registry lock, the lock on `newparent` and the lock on
`ino`. -/
theorem C17_link_lock_order (s : fs) (ino newparent : Nat) (newname : String)
    (hne : ino ≠ newparent) :
    ((dfs_link_traced s ino newparent newname).1 =
          [lockEvent.gfsLock, lockEvent.gfsUnlock] ∨
        ∃ rest, (dfs_link_traced s ino newparent newname).1 =
          lockEvent.gfsLock :: lockEvent.inodeLock newparent :: rest) ∧
      (∀ i : Nat, (dfs_link_traced s ino newparent newname).1[i]? =
          some (lockEvent.inodeLock ino) →
        ∃ j : Nat, j < i ∧ (dfs_link_traced s ino newparent newname).1[j]? =
          some (lockEvent.inodeLock newparent)) ∧
      (∀ D I, dfs_getInode s newparent = some D → dfs_getInode s ino = some I →
        S_ISDIR D.st_mode = true →
        ∃ rest, (dfs_link_traced s ino newparent newname).1 =
          lockEvent.gfsLock :: lockEvent.inodeLock newparent :: lockEvent.inodeLock ino ::
            rest) := by
  have hfirst := link_trace_parent_first s ino newparent newname
  refine ⟨hfirst, ?_, ?_⟩
  · intro i hi
    rcases hfirst with h | ⟨rest, h⟩
    · rw [h] at hi
      match i, hi with
      | 0, hi => simp at hi
      | 1, hi => simp at hi
      | i + 2, hi => simp at hi
    · rw [h] at hi ⊢
      match i, hi with
      | 0, hi => simp at hi
      | 1, hi =>
        simp only [List.getElem?_cons_succ, List.getElem?_cons_zero, Option.some.injEq,
          lockEvent.inodeLock.injEq] at hi
        exact absurd hi.symm hne
      | i + 2, _ => exact ⟨1, by omega, by simp⟩
  · intro D I hD hI hDdir
    unfold dfs_link_traced
    rw [hD]
    simp only [hDdir, Bool.not_true, Bool.false_eq_true, if_false, hI]
    split
    · exact ⟨_, rfl⟩
    · exact ⟨_, rfl⟩

/-- Witness of C17: linking the regular file 5 into the directory 7. -/
theorem C17_link_lock_order_witness :
    (5 : Nat) ≠ 7 ∧
      ∃ rest, (dfs_link_traced lateDirFs 5 7 "h").1 =
        lockEvent.gfsLock :: lockEvent.inodeLock 7 :: lockEvent.inodeLock 5 :: rest :=
  ⟨by decide,
    (C17_link_lock_order lateDirFs 5 7 "h" (by decide)).2.2 _ _ rfl rfl (by decide)⟩

/-! ## Error numbers -/

/-- C18, evaluated on the code (with `DFS_INVALID_INODE = 0`): the sample directory 1
resolves and holds no entry named `zzz`; unlink and rmdir of `zzz` in it return `ESTALE`,
not `ENOENT`, and leave the inode table unchanged.  For the same missing name
`dfs_rename` replies `ENOENT` and `dfs_lookup` a negative entry. -/
theorem C18_remove_missing_name_estale :
    dfs_getInode sampleFs 1 = some sampleDir ∧ S_ISDIR sampleDir.st_mode = true ∧
      (∀ e ∈ sampleDir.i_dirent, e.di_name ≠ "zzz") ∧
      dfs_remove 0 sampleFs 1 "zzz" false = some (ESTALE, sampleFs) ∧
      dfs_remove 0 sampleFs 1 "zzz" true = some (ESTALE, sampleFs) ∧
      ESTALE ≠ ENOENT ∧
      dfs_rename 0 sampleFs 1 "zzz" 1 "y" = some (ENOENT, sampleFs) ∧
      dfs_lookup 0 sampleFs 1 "zzz" = some lookupReply.negative :=
  ⟨rfl, by decide, by decide, rfl, rfl, by decide, rfl, rfl⟩

/-- For every resolvable parent directory P and every name N that has no entry in P,
`dfs_remove` returns `ESTALE` (fops.c:104-106) and leaves the inode table, hence P and
every inode, unchanged. -/
theorem dfs_remove_missing_name (DFS_INVALID_INODE : Nat) (s : fs) (parent : Nat)
    (N : String) (rmdir : Bool) (P : inode) (hP : dfs_getInode s parent = some P)
    (hdir : S_ISDIR P.st_mode = true) (habs : ∀ e ∈ P.i_dirent, e.di_name ≠ N) :
    dfs_remove DFS_INVALID_INODE s parent N rmdir = some (ESTALE, s) := by
  have hino : dfs_dirLookup DFS_INVALID_INODE P N = DFS_INVALID_INODE :=
    dirLookupFrom_of_not_mem DFS_INVALID_INODE N P.i_dirent habs
  unfold dfs_remove
  rw [hP]
  simp only [hdir, Bool.not_true, Bool.false_eq_true, if_false, hino, if_true]

/-- Unlink of `zzz` in the sample directory. -/
theorem dfs_remove_missing_name_example :
    dfs_remove 0 sampleFs 1 "zzz" false = some (ESTALE, sampleFs) :=
  dfs_remove_missing_name 0 sampleFs 1 "zzz" false sampleDir rfl (by decide) (by decide)

theorem fs_modify_none (s : fs) (p : Nat) (f : inode → inode) (k : Nat)
    (hk : s k = none) : fs_modify s p f k = none := by
  rw [fs_modify_apply]
  by_cases hkp : k = p
  · rw [if_pos hkp, ← hkp, hk]
    rfl
  · rw [if_neg hkp, hk]

theorem dremove_none (s s' : fs) (dir : Nat) (name : String) (ino err : Nat)
    (rmdir : Bool) (k : Nat) (hk : s k = none)
    (hr : dremove s dir name ino rmdir = some (err, s')) : s' k = none := by
  unfold dremove at hr
  cases hT : dfs_getInode s ino with
  | none =>
    rw [hT] at hr
    cases hr
    exact hk
  | some T =>
    rw [hT] at hr
    simp only at hr
    split at hr
    · cases hr
    · split at hr
      · split at hr
        · cases hr
          exact hk
        · cases hr
          exact fs_modify_none _ _ _ _ (fs_modify_none _ _ _ _ (fs_modify_none _ _ _ _ hk))
      · cases hr
        exact fs_modify_none _ _ _ _ (fs_modify_none _ _ _ _ (fs_modify_none _ _ _ _ hk))

theorem renameDropTarget_none (INV : Nat) (s s1 : fs) (dir : Nat) (newname : String)
    (target k : Nat) (hk : s k = none)
    (hr : renameDropTarget INV s dir newname target = some s1) : s1 k = none := by
  unfold renameDropTarget at hr
  split at hr
  · cases hd : dremove s dir newname target false with
    | none =>
      rw [hd] at hr
      cases hr
    | some r =>
      obtain ⟨err, s'⟩ := r
      rw [hd] at hr
      cases hr
      exact dremove_none s s' dir newname target err false k hk hd
  · cases hr
    exact hk

/-- A rename between two different resolvable directories reaches the lookup of the
name with both directories held. -/
theorem dfs_rename_cross_eq (INV : Nat) (s : fs) (parent : Nat) (name : String)
    (newparent : Nat) (newname : String) (S T : inode) (hne : parent ≠ newparent)
    (hS : dfs_getInode s parent = some S) (hT : dfs_getInode s newparent = some T)
    (hSdir : S_ISDIR S.st_mode = true) (hTdir : S_ISDIR T.st_mode = true) :
    dfs_rename INV s parent name newparent newname =
      renameLocked INV s parent name newparent newname S (some newparent) := by
  unfold dfs_rename
  by_cases hgt : parent > newparent
  · rw [if_pos hgt, hT]
    simp only [hTdir, Bool.not_true, Bool.false_eq_true, if_false]
    unfold renameFromSdir
    rw [hS]
    simp only [hSdir, Bool.not_true, Bool.false_eq_true, if_false,
      if_neg (Nat.lt_asymm hgt)]
  · rw [if_neg hgt]
    unfold renameFromSdir
    rw [hS]
    have hlt : parent < newparent := by omega
    simp only [hSdir, hTdir, hT, Bool.not_true, Bool.false_eq_true, if_false, if_pos hlt]

/-- C19, evaluated on the code (with `DFS_INVALID_INODE = 0`): in `danglingFs` the name
`x` of directory 1 is found by the name lookup, bound to the number 9, which does not
resolve.  For this leaf `dfs_lookup` replies `ENOENT` and `dfs_rename` (to `g` in
directory 2) replies `ENOENT`, not `ESTALE`, while unlink and rmdir return `ESTALE`. -/
theorem C19_unresolved_leaf_enoent :
    (∃ P, dfs_getInode danglingFs 1 = some P ∧ dfs_dirLookup 0 P "x" = 9) ∧
      dfs_getInode danglingFs 9 = none ∧
      dfs_lookup 0 danglingFs 1 "x" = some (lookupReply.err ENOENT) ∧
      (∃ s', dfs_rename 0 danglingFs 1 "x" 2 "g" = some (ENOENT, s')) ∧
      ENOENT ≠ ESTALE ∧
      dfs_remove 0 danglingFs 1 "x" false = some (ESTALE, danglingFs) ∧
      dfs_remove 0 danglingFs 1 "x" true = some (ESTALE, danglingFs) :=
  ⟨⟨_, rfl, by decide⟩, rfl, rfl, ⟨_, rfl⟩, by decide, rfl, rfl⟩

/-- The error number each handler reports: when the parent handle cannot be resolved,
lookup, unlink/rmdir and rename (its source or target parent, the other one being a
directory if it resolves) report `ENOENT`; when the inode number of the leaf was found by
name lookup in the parent but that inode does not resolve, unlink/rmdir report `ESTALE`,
while lookup and rename across two directories (the rename that resolves the leaf)
report `ENOENT`. -/
theorem error_numbers_by_handler (DFS_INVALID_INODE : Nat) (s : fs) (parent : Nat)
    (name : String) :
    (dfs_getInode s parent = none →
        dfs_lookup DFS_INVALID_INODE s parent name = some (lookupReply.err ENOENT) ∧
        (∀ rmdir, dfs_remove DFS_INVALID_INODE s parent name rmdir = some (ENOENT, s))) ∧
      (∀ newparent newname,
        (dfs_getInode s parent = none ∨ dfs_getInode s newparent = none) →
        (∀ d, (dfs_getInode s parent = some d ∨ dfs_getInode s newparent = some d) →
          S_ISDIR d.st_mode = true) →
        dfs_rename DFS_INVALID_INODE s parent name newparent newname = some (ENOENT, s)) ∧
      (∀ P, dfs_getInode s parent = some P → S_ISDIR P.st_mode = true →
        dfs_dirLookup DFS_INVALID_INODE P name ≠ DFS_INVALID_INODE →
        dfs_getInode s (dfs_dirLookup DFS_INVALID_INODE P name) = none →
        dfs_lookup DFS_INVALID_INODE s parent name = some (lookupReply.err ENOENT) ∧
        (∀ rmdir, dfs_remove DFS_INVALID_INODE s parent name rmdir = some (ESTALE, s)) ∧
        (∀ newparent newname T, parent ≠ newparent →
          dfs_getInode s newparent = some T → S_ISDIR T.st_mode = true →
          (∀ err s', dfs_rename DFS_INVALID_INODE s parent name newparent newname =
              some (err, s') → err = ENOENT) ∧
          (dfs_dirLookup DFS_INVALID_INODE T newname = DFS_INVALID_INODE →
            dfs_rename DFS_INVALID_INODE s parent name newparent newname =
              some (ENOENT, s)))) := by
  refine ⟨?_, ?_, ?_⟩
  · intro hP
    refine ⟨?_, fun rmdir => ?_⟩
    · unfold dfs_lookup
      rw [hP]
    · unfold dfs_remove
      rw [hP]
  · intro newparent newname hun hdirs
    unfold dfs_rename
    by_cases hgt : parent > newparent
    · rw [if_pos hgt]
      cases hT : dfs_getInode s newparent with
      | none => rfl
      | some td =>
        have hP : dfs_getInode s parent = none := by
          rcases hun with h | h
          · exact h
          · rw [hT] at h
            cases h
        simp only [hdirs td (Or.inr hT), Bool.not_true, Bool.false_eq_true, if_false]
        unfold renameFromSdir
        rw [hP]
    · rw [if_neg hgt]
      unfold renameFromSdir
      cases hP : dfs_getInode s parent with
      | none => rfl
      | some sdir =>
        have hT : dfs_getInode s newparent = none := by
          rcases hun with h | h
          · rw [hP] at h
            cases h
          · exact h
        have hlt : parent < newparent := by
          rcases Nat.lt_or_ge parent newparent with h | h
          · exact h
          · have heq : parent = newparent := by omega
            rw [heq] at hP
            rw [hP] at hT
            cases hT
        simp only [hdirs sdir (Or.inl hP), Bool.not_true, Bool.false_eq_true, if_false,
          if_pos hlt, hT]
  · intro P hP hdir hfound hleaf
    refine ⟨?_, fun rmdir => ?_, ?_⟩
    · unfold dfs_lookup
      rw [hP]
      simp only [hdir, Bool.not_true, Bool.false_eq_true, if_false, if_neg hfound, hleaf]
    · unfold dfs_remove
      rw [hP]
      simp only [hdir, Bool.not_true, Bool.false_eq_true, if_false, if_neg hfound]
      unfold dremove
      rw [hleaf]
    · intro newparent newname T hne hT hTdir
      have hleaf' : s (dfs_dirLookup DFS_INVALID_INODE P name) = none := hleaf
      rw [dfs_rename_cross_eq DFS_INVALID_INODE s parent name newparent newname P T hne hP
        hT hdir hTdir]
      unfold renameLocked
      simp only [if_neg hfound, Option.getD_some, hT, if_pos hne]
      constructor
      · intro err s' hr
        cases hd : renameDropTarget DFS_INVALID_INODE s newparent newname
            (dfs_dirLookup DFS_INVALID_INODE T newname) with
        | none =>
          rw [hd] at hr
          cases hr
        | some s1 =>
          rw [hd] at hr
          have h1 : dfs_getInode s1 (dfs_dirLookup DFS_INVALID_INODE P name) = none :=
            renameDropTarget_none DFS_INVALID_INODE s s1 newparent newname _ _ hleaf' hd
          simp only [h1] at hr
          cases hr
          rfl
      · intro htarget
        rw [htarget]
        simp only [renameDropTarget, ne_eq, not_true_eq_false, if_false, hleaf]

/-- In `danglingFs` the leaf `x` of directory 1 does not resolve. -/
theorem error_numbers_by_handler_example :
    dfs_lookup 0 danglingFs 1 "x" = some (lookupReply.err ENOENT) ∧
      (∀ rmdir, dfs_remove 0 danglingFs 1 "x" rmdir = some (ESTALE, danglingFs)) :=
  ⟨((error_numbers_by_handler 0 danglingFs 1 "x").2.2 _ rfl (by decide) (by decide) rfl).1,
    ((error_numbers_by_handler 0 danglingFs 1 "x").2.2 _ rfl (by decide) (by decide)
      rfl).2.1⟩

/-! ## Directory listing -/

theorem readdirSkip_eq (off : Nat) (l : List dirent) (count : Nat) :
    readdirSkip off l count = (l.drop (off - count), count + min (off - count) l.length) := by
  induction l generalizing count with
  | nil => simp [readdirSkip]
  | cons d r ih =>
    simp only [readdirSkip]
    by_cases h : count < off
    · rw [if_pos h, ih (count + 1)]
      obtain ⟨m, hm⟩ : ∃ m, off - count = m + 1 := ⟨off - count - 1, by omega⟩
      have hm' : off - (count + 1) = m := by omega
      rw [hm, hm', List.drop_succ_cons, List.length_cons]
      congr 1
      omega
    · rw [if_neg h]
      have h0 : off - count = 0 := by omega
      rw [h0]
      simp

theorem readdirFill_spec (esize : dirent → Nat) (size : Nat) (l : List dirent) :
    ∀ count csize,
      ((readdirFill esize size l count csize).1.map Prod.fst =
          l.take (readdirFill esize size l count csize).1.length) ∧
        (∀ (j : Nat) (e : dirent) (c : Nat),
          (readdirFill esize size l count csize).1[j]? = some (e, c) → c = count + (j + 1)) ∧
        (readdirFill esize size l count csize).2 =
          csize + ((readdirFill esize size l count csize).1.map (fun p => esize p.1)).sum ∧
        (csize < size → (readdirFill esize size l count csize).2 < size) ∧
        (∀ e, l[(readdirFill esize size l count csize).1.length]? = some e →
          size ≤ (readdirFill esize size l count csize).2 + esize e) := by
  induction l with
  | nil =>
    intro count csize
    refine ⟨rfl, ?_, rfl, fun h => h, ?_⟩
    · intro j e c h
      simp [readdirFill] at h
    · intro e h
      simp at h
  | cons d next ih =>
    intro count csize
    by_cases hfull : csize + esize d ≥ size
    · have hr : readdirFill esize size (d :: next) count csize = ([], csize) := by
        simp only [readdirFill]
        rw [if_pos hfull]
      rw [hr]
      refine ⟨rfl, ?_, rfl, fun h => h, ?_⟩
      · intro j e c h
        simp at h
      · intro e h
        simp only [List.length_nil, List.getElem?_cons_zero, Option.some.injEq] at h
        subst h
        exact hfull
    · obtain ⟨h1, h2, h3, h4, h5⟩ := ih (count + 1) (csize + esize d)
      have hr : readdirFill esize size (d :: next) count csize =
          ((d, count + 1) :: (readdirFill esize size next (count + 1) (csize + esize d)).1,
            (readdirFill esize size next (count + 1) (csize + esize d)).2) := by
        simp only [readdirFill]
        rw [if_neg hfull]
      rw [hr]
      refine ⟨?_, ?_, ?_, ?_, ?_⟩
      · simp only [List.map_cons, List.length_cons, List.take_succ_cons]
        rw [h1]
      · intro j e c h
        cases j with
        | zero =>
          simp only [List.getElem?_cons_zero, Option.some.injEq, Prod.mk.injEq] at h
          omega
        | succ j =>
          simp only [List.getElem?_cons_succ] at h
          have := h2 j e c h
          omega
      · simp only [List.map_cons, List.sum_cons]
        rw [h3]
        omega
      · intro _
        exact h4 (by omega)
      · intro e h
        simp only [List.length_cons, List.getElem?_cons_succ] at h
        exact h5 e h

theorem readdirFill_zero_iff (esize : dirent → Nat) (size : Nat) (l : List dirent)
    (count : Nat) (hpos : ∀ e, 0 < esize e) :
    (readdirFill esize size l count 0).2 = 0 ↔ (readdirFill esize size l count 0).1 = [] := by
  obtain ⟨_, _, h3, _, _⟩ := readdirFill_spec esize size l count 0
  rw [h3, Nat.zero_add]
  cases hl : (readdirFill esize size l count 0).1 with
  | nil => simp
  | cons p r =>
    simp only [List.map_cons, List.sum_cons]
    have := hpos p.1
    constructor
    · intro h
      omega
    · intro h
      cases h

/-- C20: for every directory with the entry list `e_1 .. e_n`, every cursor `off` and
buffer size, and every positive entry size function standing for `fuse_add_direntry`:
the entries one `dfs_readdir` replies are the contiguous run of the entries following
the first `off` (none when `off >= n`), the j-th of them with the cursor value `off + j`;
the bytes replied are the sum of their sizes, less than the buffer size (which the buffer
declaration `char buf[size]` requires to be positive), and zero exactly when no entry is
replied; the run stops only at the end of the list or before an entry that would reach
the buffer size; and a second call with the cursor of the last entry, on the same
directory, replies the entries that follow, none skipped or repeated. -/
theorem C20_readdir_run (esize : dirent → Nat) (dir : inode) (size off : Nat)
    (hpos : ∀ e, 0 < esize e) :
    ((dfs_readdir esize dir size off).1.map Prod.fst =
        (dir.i_dirent.drop off).take (dfs_readdir esize dir size off).1.length) ∧
      (∀ (j : Nat) (e : dirent) (c : Nat),
        (dfs_readdir esize dir size off).1[j]? = some (e, c) → c = off + (j + 1)) ∧
      (dir.i_dirent.length ≤ off → (dfs_readdir esize dir size off).1 = []) ∧
      (dfs_readdir esize dir size off).2 =
        ((dfs_readdir esize dir size off).1.map (fun p => esize p.1)).sum ∧
      (0 < size → (dfs_readdir esize dir size off).2 < size) ∧
      ((dfs_readdir esize dir size off).2 = 0 ↔ (dfs_readdir esize dir size off).1 = []) ∧
      (∀ e, (dir.i_dirent.drop off)[(dfs_readdir esize dir size off).1.length]? = some e →
        size ≤ (dfs_readdir esize dir size off).2 + esize e) ∧
      (∀ size2,
        ((dfs_readdir esize dir size off).1 ++
            (dfs_readdir esize dir size2
              (off + (dfs_readdir esize dir size off).1.length)).1).map Prod.fst =
          (dir.i_dirent.drop off).take ((dfs_readdir esize dir size off).1.length +
            (dfs_readdir esize dir size2
              (off + (dfs_readdir esize dir size off).1.length)).1.length)) := by
  have hrun : ∀ sz o, (dfs_readdir esize dir sz o).1.map Prod.fst =
      (dir.i_dirent.drop o).take (dfs_readdir esize dir sz o).1.length := by
    intro sz o
    unfold dfs_readdir
    simp only [readdirSkip_eq, Nat.sub_zero]
    exact (readdirFill_spec esize sz _ _ 0).1
  unfold dfs_readdir at hrun ⊢
  simp only [readdirSkip_eq, Nat.sub_zero, Nat.zero_add] at hrun ⊢
  obtain ⟨h1, h2, h3, h4, h5⟩ :=
    readdirFill_spec esize size (dir.i_dirent.drop off) (min off dir.i_dirent.length) 0
  refine ⟨h1, ?_, ?_, ?_, h4, ?_, h5, ?_⟩
  · intro j e c h
    have hc := h2 j e c h
    have hne : dir.i_dirent.drop off ≠ [] := by
      intro hnil
      rw [hnil] at h
      simp [readdirFill] at h
    have hlt : off < dir.i_dirent.length := by
      by_contra hge
      exact hne (List.drop_eq_nil_of_le (by omega))
    rw [Nat.min_eq_left (Nat.le_of_lt hlt)] at hc
    exact hc
  · intro hge
    rw [List.drop_eq_nil_of_le hge]
    rfl
  · exact h3.trans (Nat.zero_add _)
  · exact readdirFill_zero_iff esize size _ _ hpos
  · intro size2
    rw [List.map_append, h1, hrun size2, List.take_add, ← List.drop_drop]

/-- The listing of the sample directory from the cursor 1 with a buffer of 70 bytes and
entries of 32 bytes each: two entries fit. -/
theorem dfs_readdir_example :
    dfs_readdir (fun _ => 32) sampleDir 70 1 =
      ([(⟨6, "b", 1, S_IFREG⟩, 2), (⟨5, "c", 1, S_IFREG⟩, 3)], 64) := by
  decide

/-- Witness of C20: listing the sample directory from the cursor 1 with a buffer of 40
bytes and entries of 32 bytes each. -/
theorem C20_readdir_run_witness :
    (∀ e : dirent, 0 < (fun _ : dirent => 32) e) ∧
      (dfs_readdir (fun _ => 32) sampleDir 40 1).1.map Prod.fst =
        (sampleDir.i_dirent.drop 1).take
          (dfs_readdir (fun _ => 32) sampleDir 40 1).1.length :=
  ⟨fun _ => Nat.succ_pos 31,
    (C20_readdir_run (fun _ => 32) sampleDir 40 1 (fun _ => Nat.succ_pos 31)).1⟩

/-! ## Unlink -/

theorem nlink_dec_of_pos_eq (n : Nat) (hpos : 1 ≤ n) (hlt : n < 2 ^ 64) :
    nlink_dec n = n - 1 := by
  have h := nlink_dec_of_pos n hpos hlt
  omega

theorem dremove_unlink_eq (s : fs) (dir : Nat) (name : String) (ino : Nat) (T : inode)
    (hT : dfs_getInode s ino = some T) (hn : 1 ≤ T.st_nlink) :
    dremove s dir name ino false =
      some (0, fs_modify
        (fs_modify (fs_modify s ino (fun i => { i with st_nlink := nlink_dec i.st_nlink }))
          ino (fun i => if i.st_nlink = 0 then { i with i_removed := true } else i))
        dir (fun d => dfs_dirRemove d name)) := by
  unfold dremove
  rw [hT]
  have h0 : T.st_nlink ≠ 0 := by omega
  simp [h0]

/-- C25: for every parent directory P and every other inode T, with link count n >= 1,
resolved for the number found under a name: unlink (`dremove` with `rmdir = false`)
succeeds, sets the link count of T to n - 1 (the decrement of `nlink_t`), sets its
removed flag when the new count is 0 and leaves the flag as it was otherwise, removes
from P the first entry the lookup matches against the name, and leaves the link count of
P unchanged.  P is held exclusively by the caller, so the inode T that `dfs_getInode`
locks is another one. -/
theorem C25_unlink_link_count (s : fs) (dir : Nat) (name : String) (ino : Nat)
    (P T : inode) (hP : s dir = some P) (hT : dfs_getInode s ino = some T)
    (hn : 1 ≤ T.st_nlink) (hne : dir ≠ ino) :
    ∃ s' P' T', dremove s dir name ino false = some (0, s') ∧
      s' dir = some P' ∧ s' ino = some T' ∧
      T'.st_nlink = nlink_dec T.st_nlink ∧
      (T.st_nlink < 2 ^ 64 → T'.st_nlink = T.st_nlink - 1) ∧
      T'.i_removed = (if T'.st_nlink = 0 then true else T.i_removed) ∧
      P'.i_dirent = (dfs_dirRemove P name).i_dirent ∧
      P'.i_dirent = P.i_dirent.eraseP
        (fun e => decide (name.length = e.di_size ∧ name = e.di_name)) ∧
      P'.st_nlink = P.st_nlink := by
  have hT' : s ino = some T := hT
  have hid : ino ≠ dir := fun h => hne h.symm
  rw [dremove_unlink_eq s dir name ino T hT hn]
  by_cases hz : nlink_dec T.st_nlink = 0
  · refine ⟨_, dfs_dirRemove P name,
      { T with st_nlink := nlink_dec T.st_nlink, i_removed := true }, rfl, ?_, ?_, rfl,
      ?_, ?_, rfl, ?_, rfl⟩
    · simp [fs_modify_apply, hP, hne]
    · simp [fs_modify_apply, hT', hid, hz]
    · intro hlt
      exact nlink_dec_of_pos_eq T.st_nlink hn hlt
    · show true = if nlink_dec T.st_nlink = 0 then true else T.i_removed
      rw [if_pos hz]
    · exact dirRemoveFrom_eq_eraseP_match name P.i_dirent
  · refine ⟨_, dfs_dirRemove P name, { T with st_nlink := nlink_dec T.st_nlink }, rfl,
      ?_, ?_, rfl, ?_, ?_, rfl, ?_, rfl⟩
    · simp [fs_modify_apply, hP, hne]
    · simp [fs_modify_apply, hT', hid, hz]
    · intro hlt
      exact nlink_dec_of_pos_eq T.st_nlink hn hlt
    · show T.i_removed = if nlink_dec T.st_nlink = 0 then true else T.i_removed
      rw [if_neg hz]
    · exact dirRemoveFrom_eq_eraseP_match name P.i_dirent

/-- Witness of C25: unlink of `a` (inode 5, two links) in the sample directory. -/
theorem C25_unlink_link_count_witness :
    sampleFs 1 = some sampleDir ∧ dfs_getInode sampleFs 5 = some (sampleFile 5 2) ∧
      1 ≤ (sampleFile 5 2).st_nlink ∧ (1 : Nat) ≠ 5 ∧
      ∃ s' P' T', dremove sampleFs 1 "a" 5 false = some (0, s') ∧
        s' 1 = some P' ∧ s' 5 = some T' ∧
        T'.st_nlink = nlink_dec (sampleFile 5 2).st_nlink ∧
        ((sampleFile 5 2).st_nlink < 2 ^ 64 → T'.st_nlink = (sampleFile 5 2).st_nlink - 1) ∧
        T'.i_removed = (if T'.st_nlink = 0 then true else (sampleFile 5 2).i_removed) ∧
        P'.i_dirent = (dfs_dirRemove sampleDir "a").i_dirent ∧
        P'.i_dirent = sampleDir.i_dirent.eraseP
          (fun e => decide ("a".length = e.di_size ∧ "a" = e.di_name)) ∧
        P'.st_nlink = sampleDir.st_nlink :=
  ⟨rfl, rfl, by decide, by decide,
    C25_unlink_link_count sampleFs 1 "a" 5 sampleDir (sampleFile 5 2) rfl rfl (by decide)
      (by decide)⟩

/-! ## Read and write -/

/-- C26: for every regular file with recorded size s, every offset and every request
length size > 0: `dfs_read` replies zero bytes, without a page store call, when
`off >= s`; otherwise it asks the page store for exactly the range
`[off, min(off + size, s))` and replies exactly `min(size, s - off)` bytes; the range it
asks for never reaches beyond the recorded size. -/
theorem C26_read_range (s : fs) (ino size off : Nat) (I : inode)
    (hI : dfs_getInode s ino = some I) (hreg : S_ISREG I.st_mode = true)
    (hsize : 0 < size) :
    (I.st_size ≤ off → dfs_read s ino size off = some ([fuseReply.buf 0], [])) ∧
      (off < I.st_size →
        dfs_read s ino size off =
          some ([fuseReply.buf (min size (I.st_size - off))],
            [pageStoreCall.readPages off (min (off + size) I.st_size)])) ∧
      (∀ replies calls a b, dfs_read s ino size off = some (replies, calls) →
        pageStoreCall.readPages a b ∈ calls → a = off ∧ a < b ∧ b ≤ I.st_size) := by
  have hne : size ≠ 0 := by omega
  have hread : dfs_read s ino size off =
      if off ≥ I.st_size then some ([fuseReply.buf 0], [])
      else some ([fuseReply.buf ((if off + size > I.st_size then I.st_size else off + size) -
          off)],
        [pageStoreCall.readPages off
          (if off + size > I.st_size then I.st_size else off + size)]) := by
    unfold dfs_read
    rw [hI]
    simp [hreg, hne]
  have hend : off < I.st_size →
      (if off + size > I.st_size then I.st_size else off + size) =
        min (off + size) I.st_size := by
    intro _
    split <;> omega
  refine ⟨?_, ?_, ?_⟩
  · intro hge
    rw [hread, if_pos hge]
  · intro hlt
    rw [hread, if_neg (by omega), hend hlt]
    have hmin : min (off + size) I.st_size - off = min size (I.st_size - off) := by omega
    rw [hmin]
  · intro replies calls a b hr hmem
    rw [hread] at hr
    by_cases hge : off ≥ I.st_size
    · rw [if_pos hge] at hr
      cases hr
      simp at hmem
    · rw [if_neg hge, hend (by omega)] at hr
      cases hr
      simp only [List.mem_singleton, pageStoreCall.readPages.injEq] at hmem
      omega

/-- Witness of C26: reading 8 bytes at offset 6 of a file of 10 bytes. -/
theorem C26_read_range_witness :
    dfs_read (fs_store sampleFs 5 { sampleFile 5 2 with st_size := 10 }) 5 8 6 =
      some ([fuseReply.buf (min 8 (10 - 6))],
        [pageStoreCall.readPages 6 (min (6 + 8) 10)]) :=
  (C26_read_range (fs_store sampleFs 5 { sampleFile 5 2 with st_size := 10 }) 5 8 6
    { sampleFile 5 2 with st_size := 10 } rfl (by decide) (by decide)).2.1 (by decide)

/-- C21, evaluated on the code: `dfs_getattr` on the handle 9, which does not resolve in
the sample table, replies `ENOENT` and then reads through the NULL inode pointer;
`dfs_read` with `size = 0` on the regular file 5 sends two replies, and on the handle 9
it sends a buffer reply and then an error reply. -/
theorem C21_getattr_read_replies :
    dfs_getInode sampleFs 9 = none ∧
      dfs_getattr sampleFs 9 =
        [handlerEvent.reply (fuseReply.err ENOENT), handlerEvent.nullDeref] ∧
      dfs_read sampleFs 5 0 0 = some ([fuseReply.buf 0, fuseReply.buf 0], []) ∧
      dfs_read sampleFs 9 0 0 = some ([fuseReply.buf 0, fuseReply.err ENOENT], []) :=
  ⟨rfl, rfl, rfl, rfl⟩

/-- C27: for every regular file with recorded size s and every write of `size` bytes at
the offset `off` (block size B > 0): `dfs_write` replies the byte count and leaves the
recorded size `max(s, off + size)`; the size never shrinks, and a write that lies within
the current size leaves it unchanged. -/
theorem C27_write_size (B : Nat) (s : fs) (ino size off : Nat) (I : inode) (hB : 0 < B)
    (hI : dfs_getInode s ino = some I) (hreg : S_ISREG I.st_mode = true) :
    ∃ s' I' calls, dfs_write B s ino size off = some (fuseReply.write size, s', calls) ∧
      s' ino = some I' ∧
      I'.st_size = max I.st_size (off + size) ∧
      I.st_size ≤ I'.st_size ∧
      (off + size ≤ I.st_size → I'.st_size = I.st_size) ∧
      (∀ k, k ≠ ino → s' k = s k) := by
  have hI' : s ino = some I := hI
  obtain ⟨calls, hcalls, _⟩ := dfs_write_calls_total B off size hB
  unfold dfs_write
  rw [hI]
  simp only [hreg, Bool.not_true, Bool.false_eq_true, if_false, hcalls]
  by_cases hgt : off + size > I.st_size
  · refine ⟨_, { I with st_size := off + size }, calls, rfl, ?_, ?_, ?_, ?_, ?_⟩
    · simp [fs_modify_apply, hI', hgt]
    · show off + size = max I.st_size (off + size)
      omega
    · show I.st_size ≤ off + size
      omega
    · intro hle
      omega
    · intro k hk
      simp [fs_modify_apply, hk]
  · refine ⟨_, I, calls, rfl, ?_, ?_, Nat.le_refl _, fun _ => rfl, ?_⟩
    · simp [fs_modify_apply, hI', hgt]
    · omega
    · intro k hk
      simp [fs_modify_apply, hk]

/-- Witness of C27: on a file of 10 bytes, a write of 5 bytes at offset 3 leaves the
size 10. -/
theorem C27_write_size_witness :
    (0 : Nat) < 4096 ∧
      ∃ s' I' calls,
        dfs_write 4096 (fs_store sampleFs 5 { sampleFile 5 2 with st_size := 10 }) 5 5 3 =
          some (fuseReply.write 5, s', calls) ∧
        s' 5 = some I' ∧
        I'.st_size = max ({ sampleFile 5 2 with st_size := 10 } : inode).st_size (3 + 5) ∧
        ({ sampleFile 5 2 with st_size := 10 } : inode).st_size ≤ I'.st_size ∧
        (3 + 5 ≤ ({ sampleFile 5 2 with st_size := 10 } : inode).st_size →
          I'.st_size = ({ sampleFile 5 2 with st_size := 10 } : inode).st_size) ∧
        (∀ k, k ≠ 5 → s' k = fs_store sampleFs 5 { sampleFile 5 2 with st_size := 10 } k) :=
  ⟨by decide,
    C27_write_size 4096 (fs_store sampleFs 5 { sampleFile 5 2 with st_size := 10 }) 5 5 3
      { sampleFile 5 2 with st_size := 10 } (by decide) rfl (by decide)⟩

/-- Writing 10 bytes at offset 0 to the empty file 6 and then 5 bytes at offset 3 leaves
the recorded size 10. -/
theorem dfs_write_twice_example :
    ∃ s1 s2 c1 c2 I2, dfs_write 4096 sampleFs 6 10 0 = some (fuseReply.write 10, s1, c1) ∧
      dfs_write 4096 s1 6 5 3 = some (fuseReply.write 5, s2, c2) ∧
      s2 6 = some I2 ∧ I2.st_size = 10 :=
  ⟨_, _, _, _, _, rfl, rfl, rfl, rfl⟩

/-! ## The name buffer on rename of an entry -/

/-- Without the buffers the instrumented loop is the loop of `dfs_dirRename`. -/
theorem dirRenameBufFrom_ent (ino : Nat) (name : String) (fresh : Nat)
    (l : List direntBuf) :
    (dirRenameBufFrom ino name fresh l).1.map direntBuf.ent =
      dirRenameFrom ino name (l.map direntBuf.ent) := by
  induction l with
  | nil => rfl
  | cons d r ih =>
    simp only [dirRenameBufFrom, List.map_cons, dirRenameFrom]
    by_cases h : d.ent.di_ino = ino
    · rw [if_pos h, if_pos h]
      split <;> rfl
    · rw [if_neg h, if_neg h]
      simp only [List.map_cons, ih]

theorem dirRenameBufFrom_split (ino : Nat) (name : String) (fresh : Nat)
    (pre post : List direntBuf) (d : direntBuf)
    (hpre : ∀ x ∈ pre, x.ent.di_ino ≠ ino) (hd : d.ent.di_ino = ino) :
    dirRenameBufFrom ino name fresh (pre ++ d :: post) =
      if name.length > d.ent.di_size then
        (pre ++ { ent := { d.ent with di_name := name, di_size := name.length },
                  addr := fresh, cap := name.length + 1 } :: post,
          [allocEvent.free d.addr, allocEvent.malloc fresh (name.length + 1)])
      else
        (pre ++ { d with ent := { d.ent with di_name := name, di_size := name.length } } ::
          post, []) := by
  induction pre with
  | nil =>
    simp only [List.nil_append, dirRenameBufFrom]
    rw [if_pos hd]
  | cons x r ih =>
    have hx : x.ent.di_ino ≠ ino := hpre x (List.mem_cons_self _ _)
    have hr : ∀ y ∈ r, y.ent.di_ino ≠ ino := fun y hy => hpre y (List.mem_cons_of_mem _ hy)
    rw [List.cons_append, dirRenameBufFrom, if_neg hx]
    simp only [ih hr]
    split <;> rfl

theorem getElem?_append_cons_length {α : Type} (pre post : List α) (x : α) :
    (pre ++ x :: post)[pre.length]? = some x := by
  induction pre with
  | nil => simp
  | cons a r ih => simpa using ih

/-- C22: for the entry `d` that `dfs_dirRename` renames (the first one bound to the inode
number) and every new name M: when `strlen(M)` is at most the length the entry records
(`di_size`, the length of its name for every entry made by `dfs_dirAdd` or
`dfs_dirRename`), the entry keeps its name buffer, with the same address and size,
and no `free` or `malloc` is called; when M is strictly longer the old buffer is freed
and a buffer of `strlen(M) + 1` bytes is allocated; an allocator call is made only in
that case; in both cases the name of the entry is M afterwards. -/
theorem C22_rename_buffer (ino : Nat) (M : String) (fresh : Nat)
    (pre post : List direntBuf) (d : direntBuf)
    (hpre : ∀ x ∈ pre, x.ent.di_ino ≠ ino) (hd : d.ent.di_ino = ino) :
    (M.length ≤ d.ent.di_size →
        dirRenameBufFrom ino M fresh (pre ++ d :: post) =
          (pre ++ { ent := { d.ent with di_name := M, di_size := M.length },
                    addr := d.addr, cap := d.cap } :: post, [])) ∧
      (d.ent.di_size = d.ent.di_name.length → M.length ≤ d.ent.di_name.length →
        dirRenameBufFrom ino M fresh (pre ++ d :: post) =
          (pre ++ { ent := { d.ent with di_name := M, di_size := M.length },
                    addr := d.addr, cap := d.cap } :: post, [])) ∧
      (d.ent.di_size < M.length →
        dirRenameBufFrom ino M fresh (pre ++ d :: post) =
          (pre ++ { ent := { d.ent with di_name := M, di_size := M.length },
                    addr := fresh, cap := M.length + 1 } :: post,
            [allocEvent.free d.addr, allocEvent.malloc fresh (M.length + 1)])) ∧
      ((dirRenameBufFrom ino M fresh (pre ++ d :: post)).2 ≠ [] →
        d.ent.di_size < M.length) ∧
      (∃ d', (dirRenameBufFrom ino M fresh (pre ++ d :: post)).1[pre.length]? = some d' ∧
        d'.ent.di_name = M) := by
  have hsplit := dirRenameBufFrom_split ino M fresh pre post d hpre hd
  have hkeep : M.length ≤ d.ent.di_size →
      dirRenameBufFrom ino M fresh (pre ++ d :: post) =
        (pre ++ { ent := { d.ent with di_name := M, di_size := M.length },
                  addr := d.addr, cap := d.cap } :: post, []) := by
    intro hle
    rw [hsplit, if_neg (by omega)]
  refine ⟨hkeep, ?_, ?_, ?_, ?_⟩
  · intro hwf hle
    exact hkeep (by omega)
  · intro hgt
    rw [hsplit, if_pos hgt]
  · intro hev
    by_contra hle
    rw [hkeep (by omega)] at hev
    exact hev rfl
  · rw [hsplit]
    split
    · exact ⟨_, getElem?_append_cons_length pre post _, rfl⟩
    · exact ⟨_, getElem?_append_cons_length pre post _, rfl⟩

/-- Witness of C22: an entry named `abcd` (buffer of 5 bytes at address 100) is renamed
to `xy`: it keeps the buffer. -/
theorem C22_rename_buffer_witness :
    (∀ x ∈ ([] : List direntBuf), x.ent.di_ino ≠ 5) ∧
      (dirAddBuf 5 S_IFREG "abcd" 100).ent.di_ino = 5 ∧
      "xy".length ≤ (dirAddBuf 5 S_IFREG "abcd" 100).ent.di_size ∧
      dirRenameBufFrom 5 "xy" 200 ([] ++ dirAddBuf 5 S_IFREG "abcd" 100 :: []) =
        ([] ++ { ent := { (dirAddBuf 5 S_IFREG "abcd" 100).ent with
                          di_name := "xy", di_size := "xy".length },
                 addr := (dirAddBuf 5 S_IFREG "abcd" 100).addr,
                 cap := (dirAddBuf 5 S_IFREG "abcd" 100).cap } :: [], []) :=
  ⟨by decide, rfl, by decide,
    (C22_rename_buffer 5 "xy" 200 [] [] (dirAddBuf 5 S_IFREG "abcd" 100) (by decide) rfl).1
      (by decide)⟩

/-! ## Rename within one directory -/

/-- C23, evaluated on the code (with `DFS_INVALID_INODE = 0`): renaming `b`, the only
entry bound to inode 6 in directory 1 of the sample table, to the same name `b` replies
success; afterwards the lookup of `b` returns `DFS_INVALID_INODE`, the entry is gone and
inode 6 has the link count 0 and is flagged removed. -/
theorem C23_rename_to_same_name :
    ∃ s' D F, dfs_dirLookup 0 sampleDir "b" = 6 ∧
      dfs_rename 0 sampleFs 1 "b" 1 "b" = some (0, s') ∧
      s' 1 = some D ∧ dfs_dirLookup 0 D "b" = 0 ∧
      D.i_dirent = [⟨5, "a", 1, S_IFREG⟩, ⟨5, "c", 1, S_IFREG⟩] ∧
      s' 6 = some F ∧ F.st_nlink = 0 ∧ F.i_removed = true :=
  ⟨_, _, _, by decide, rfl, rfl, by decide, by decide, rfl, by decide, rfl⟩

/-- C24, evaluated on the code (with `DFS_INVALID_INODE = 0`): directory 1 of the sample
table holds `a -> 5`, `b -> 6`, `c -> 5`, with pairwise distinct names.  Renaming `c` to
the new name `z` replies success; afterwards the lookup of `c` still returns 5, and the
entry `a`, which is neither the renamed entry nor a replaced one, is the one that got the
name `z`. -/
theorem C24_rename_other_hard_link :
    ∃ s' D, (sampleDir.i_dirent.map dirent.di_name).Nodup ∧
      dfs_dirLookup 0 sampleDir "c" = 5 ∧ dfs_dirLookup 0 sampleDir "z" = 0 ∧
      dfs_rename 0 sampleFs 1 "c" 1 "z" = some (0, s') ∧
      s' 1 = some D ∧
      D.i_dirent = [⟨5, "z", 1, S_IFREG⟩, ⟨6, "b", 1, S_IFREG⟩, ⟨5, "c", 1, S_IFREG⟩] ∧
      dfs_dirLookup 0 D "c" = 5 ∧ dfs_dirLookup 0 D "a" = 0 :=
  ⟨_, _, by decide, by decide, by decide, rfl, rfl, by decide, by decide, by decide⟩

/-! ## The link count invariant across the entry points -/

theorem dirLookupFrom_eq_matched (INV : Nat) (N : String) (l : List dirent) :
    dirLookupFrom INV N l =
      match matchedEntry N l with
      | some e => e.di_ino
      | none => INV := by
  induction l with
  | nil => rfl
  | cons e r ih =>
    unfold matchedEntry at ih ⊢
    simp only [dirLookupFrom, List.find?]
    by_cases hm : N.length = e.di_size ∧ N = e.di_name
    · rw [if_pos hm, decide_eq_true hm]
    · rw [if_neg hm, decide_eq_false hm]
      exact ih

theorem dirRemoveFrom_of_matched_none (N : String) (l : List dirent)
    (h : matchedEntry N l = none) : dirRemoveFrom N l = l := by
  induction l with
  | nil => rfl
  | cons e r ih =>
    unfold matchedEntry at ih h
    simp only [List.find?] at h
    by_cases hm : N.length = e.di_size ∧ N = e.di_name
    · rw [decide_eq_true hm] at h
      cases h
    · rw [decide_eq_false hm] at h
      simp only [dirRemoveFrom]
      rw [if_neg hm, ih h]

theorem subdirCount_of_matched_some (N : String) (l : List dirent) (e : dirent)
    (h : matchedEntry N l = some e) :
    subdirCount l =
      subdirCount (dirRemoveFrom N l) + (if S_ISDIR e.di_mode = true then 1 else 0) := by
  induction l with
  | nil => cases h
  | cons x r ih =>
    unfold matchedEntry at ih h
    simp only [List.find?] at h
    by_cases hm : N.length = x.di_size ∧ N = x.di_name
    · rw [decide_eq_true hm] at h
      cases h
      simp only [dirRemoveFrom]
      rw [if_pos hm, subdirCount_cons]
      omega
    · rw [decide_eq_false hm] at h
      simp only [dirRemoveFrom]
      rw [if_neg hm, subdirCount_cons, subdirCount_cons, ih h]
      omega

theorem subdirCount_dirRenameFrom (I : Nat) (M : String) (l : List dirent) :
    subdirCount (dirRenameFrom I M l) = subdirCount l := by
  induction l with
  | nil => rfl
  | cons x r ih =>
    simp only [dirRenameFrom]
    split
    · rw [subdirCount_cons, subdirCount_cons]
    · rw [subdirCount_cons, subdirCount_cons, ih]

theorem fs_modify_comm (s : fs) (p q : Nat) (f g : inode → inode) (hpq : p ≠ q) :
    fs_modify (fs_modify s p f) q g = fs_modify (fs_modify s q g) p f := by
  funext k
  simp only [fs_modify_apply]
  by_cases hkp : k = p
  · subst hkp
    simp [hpq, fun h : q = k => hpq h.symm]
  · by_cases hkq : k = q
    · subst hkq
      simp [hkp, fun h : p = k => hkp h.symm]
    · simp [hkp, hkq]

/-- An update that keeps the mode, the link count and the entries keeps the invariant. -/
theorem linkCountInv_modify_same (s : fs) (p : Nat) (f : inode → inode)
    (hs : linkCountInv s)
    (hf : ∀ d, (f d).st_mode = d.st_mode ∧ (f d).st_nlink = d.st_nlink ∧
      (f d).i_dirent = d.i_dirent) : linkCountInv (fs_modify s p f) := by
  apply linkCountInv_modify s p f hs
  intro d hd hdir
  obtain ⟨hm, hn, hl⟩ := hf d
  rw [hm] at hdir
  rw [hn, hl]
  exact hs p d hd hdir

/-- An update of an inode that is not a directory, keeping its mode, keeps the
invariant. -/
theorem linkCountInv_modify_nondir (s : fs) (p : Nat) (f : inode → inode)
    (hs : linkCountInv s) (hmode : ∀ d, (f d).st_mode = d.st_mode)
    (hnd : ∀ d, s p = some d → S_ISDIR d.st_mode = false) :
    linkCountInv (fs_modify s p f) := by
  apply linkCountInv_modify s p f hs
  intro d hd hdir
  rw [hmode d, hnd d hd] at hdir
  cases hdir

theorem S_ISDIR_false_of_S_ISREG (mode : Nat) (h : S_ISREG mode = true) :
    S_ISDIR mode = false := by
  unfold S_ISREG at h
  unfold S_ISDIR
  have h1 : (mode &&& S_IFMT) = S_IFREG := by simpa using h
  rw [h1]
  decide

theorem nlink_dec_inv (c n : Nat) (hn : n = (2 + (c + 1)) % 2 ^ 64) :
    nlink_dec n = (2 + c) % 2 ^ 64 := by
  unfold nlink_dec NLINK_MOD
  norm_num at hn ⊢
  omega

theorem linkCountInv_link (s s' : fs) (ino newparent : Nat) (newname : String) (err : Nat)
    (hs : linkCountInv s) (hr : dfs_link s ino newparent newname = some (err, s')) :
    linkCountInv s' := by
  unfold dfs_link at hr
  cases hP : dfs_getInode s newparent with
  | none =>
    rw [hP] at hr
    cases hr
    exact hs
  | some P =>
    rw [hP] at hr
    simp only at hr
    split at hr
    · cases hr
    · rename_i hPdir
      cases hT : dfs_getInode s ino with
      | none =>
        rw [hT] at hr
        cases hr
        exact hs
      | some T =>
        rw [hT] at hr
        simp only at hr
        split at hr
        · cases hr
        · rename_i hTreg
          cases hr
          have hreg : S_ISREG T.st_mode = true := by simpa using hTreg
          have hTnd : S_ISDIR T.st_mode = false := S_ISDIR_false_of_S_ISREG _ hreg
          have hPd : S_ISDIR P.st_mode = true := by simpa using hPdir
          have hne : ino ≠ newparent := by
            intro h
            rw [h] at hT
            rw [hT] at hP
            cases hP
            rw [hPd] at hTnd
            cases hTnd
          have h1 : linkCountInv (fs_modify s newparent
              (fun d => dfs_dirAdd d T.st_ino T.st_mode newname)) := by
            apply linkCountInv_modify _ _ _ hs
            intro d hd hdir
            have hd0 := hs newparent d hd hdir
            show d.st_nlink = (2 + subdirCount (_ :: d.i_dirent)) % 2 ^ 64
            rw [subdirCount_cons]
            have he : ¬ S_ISDIR (T.st_mode &&& S_IFMT) = true := by
              rw [S_ISDIR_mask, hTnd]
              exact Bool.false_ne_true
            rw [if_neg he, Nat.zero_add]
            exact hd0
          refine linkCountInv_modify_nondir _ ino
            (fun i => { i with st_nlink := nlink_inc i.st_nlink }) h1 (fun _ => rfl) ?_
          intro d hd
          rw [fs_modify_apply, if_neg hne] at hd
          have hT' : s ino = some T := hT
          rw [hT'] at hd
          cases hd
          exact hTnd

theorem linkCountInv_unlink (INV : Nat) (s s' : fs) (parent : Nat) (name : String)
    (err : Nat) (hs : linkCountInv s) (hcond : removesNonDir INV s parent name)
    (hr : dfs_remove INV s parent name false = some (err, s')) : linkCountInv s' := by
  unfold dfs_remove at hr
  cases hP : dfs_getInode s parent with
  | none =>
    rw [hP] at hr
    cases hr
    exact hs
  | some P =>
    have hP' : s parent = some P := hP
    rw [hP] at hr
    simp only at hr
    split at hr
    · cases hr
    · rename_i hPdir
      have hPd : S_ISDIR P.st_mode = true := by simpa using hPdir
      split at hr
      · cases hr
        exact hs
      · cases hT : dfs_getInode s (dfs_dirLookup INV P name) with
        | none =>
          unfold dremove at hr
          rw [hT] at hr
          cases hr
          exact hs
        | some T =>
          have hT' : s (dfs_dirLookup INV P name) = some T := hT
          have hTnd : S_ISDIR T.st_mode = false := (hcond P hP').2 T hT'
          have hne : parent ≠ dfs_dirLookup INV P name := by
            intro h
            rw [← h, hP'] at hT'
            cases hT'
            rw [hPd] at hTnd
            cases hTnd
          by_cases h0 : T.st_nlink = 0
          · unfold dremove at hr
            rw [hT] at hr
            simp [h0] at hr
          · rw [dremove_unlink_eq s parent name _ T hT (by omega)] at hr
            cases hr
            have h1 : linkCountInv (fs_modify s (dfs_dirLookup INV P name)
                (fun i => { i with st_nlink := nlink_dec i.st_nlink })) := by
              refine linkCountInv_modify_nondir s (dfs_dirLookup INV P name)
                (fun i => { i with st_nlink := nlink_dec i.st_nlink }) hs (fun _ => rfl) ?_
              intro d hd
              rw [hT'] at hd
              cases hd
              exact hTnd
            have h2 : linkCountInv (fs_modify (fs_modify s (dfs_dirLookup INV P name)
                (fun i => { i with st_nlink := nlink_dec i.st_nlink }))
                (dfs_dirLookup INV P name)
                (fun i => if i.st_nlink = 0 then { i with i_removed := true } else i)) := by
              apply linkCountInv_modify_same _ _ _ h1
              intro d
              split <;> exact ⟨rfl, rfl, rfl⟩
            apply linkCountInv_modify _ _ _ h2
            intro d hd hdir
            rw [fs_modify_apply, if_neg hne, fs_modify_apply, if_neg hne, hP'] at hd
            cases hd
            have hd0 := hs parent _ hP' hPd
            show P.st_nlink = (2 + subdirCount (dirRemoveFrom name P.i_dirent)) % 2 ^ 64
            cases hm : matchedEntry name P.i_dirent with
            | none =>
              rw [dirRemoveFrom_of_matched_none name _ hm]
              exact hd0
            | some e =>
              have he := (hcond _ hP').1 e hm
              have hc := subdirCount_of_matched_some name _ e hm
              rw [he] at hc
              simp only [Bool.false_eq_true, if_false, Nat.add_zero] at hc
              rw [← hc]
              exact hd0

theorem linkCountInv_rmdir (INV : Nat) (s s' : fs) (parent : Nat) (name : String)
    (err : Nat) (hs : linkCountInv s) (hcond : removesDir s parent name)
    (hr : dfs_remove INV s parent name true = some (err, s')) : linkCountInv s' := by
  unfold dfs_remove at hr
  cases hP : dfs_getInode s parent with
  | none =>
    rw [hP] at hr
    cases hr
    exact hs
  | some P =>
    have hP' : s parent = some P := hP
    rw [hP] at hr
    simp only at hr
    split at hr
    · cases hr
    · rename_i hPdir
      have hPd : S_ISDIR P.st_mode = true := by simpa using hPdir
      split at hr
      · cases hr
        exact hs
      · rename_i hfound
        cases hT : dfs_getInode s (dfs_dirLookup INV P name) with
        | none =>
          unfold dremove at hr
          rw [hT] at hr
          cases hr
          exact hs
        | some T =>
          rw [dremove_rmdir_eq s parent name _ T hT] at hr
          split at hr
          · cases hr
          · split at hr
            · cases hr
              exact hs
            · cases hr
              obtain ⟨e, hm⟩ : ∃ e, matchedEntry name P.i_dirent = some e := by
                cases hm : matchedEntry name P.i_dirent with
                | some e => exact ⟨e, rfl⟩
                | none =>
                  exfalso
                  apply hfound
                  unfold dfs_dirLookup
                  rw [dirLookupFrom_eq_matched, hm]
              have hc := subdirCount_of_matched_some name _ e hm
              rw [if_pos (hcond P e hP' hm)] at hc
              have hd0 := hs parent P hP' hPd
              rw [hc] at hd0
              have hdec := nlink_dec_inv _ _ hd0
              by_cases hpi : parent = dfs_dirLookup INV P name
              · rw [← hpi, fs_modify_modify, fs_modify_modify]
                apply linkCountInv_modify _ _ _ hs
                intro d hd _
                rw [hP'] at hd
                cases hd
                exact hdec
              · have hip : dfs_dirLookup INV P name ≠ parent := fun h => hpi h.symm
                rw [fs_modify_comm _ _ _ _ _ hip, fs_modify_modify]
                refine linkCountInv_modify_same _ _
                  (fun i => { i with i_removed := true }) ?_ (fun _ => ⟨rfl, rfl, rfl⟩)
                apply linkCountInv_modify _ _ _ hs
                intro d hd _
                rw [hP'] at hd
                cases hd
                exact hdec

theorem linkCountInv_rename_same_dir (INV : Nat) (s s' : fs) (parent : Nat)
    (name newname : String) (err : Nat) (hs : linkCountInv s)
    (habs : nameAbsent s parent newname)
    (hr : dfs_rename INV s parent name parent newname = some (err, s')) :
    linkCountInv s' := by
  unfold dfs_rename at hr
  rw [if_neg (Nat.lt_irrefl parent)] at hr
  unfold renameFromSdir at hr
  cases hP : dfs_getInode s parent with
  | none =>
    rw [hP] at hr
    cases hr
    exact hs
  | some P =>
    rw [hP] at hr
    simp only at hr
    split at hr
    · cases hr
    · rw [if_neg (Nat.lt_irrefl parent)] at hr
      unfold renameLocked at hr
      simp only [Option.getD_none, hP] at hr
      split at hr
      · cases hr
        exact hs
      · have htarget : dfs_dirLookup INV P newname = INV :=
          dirLookupFrom_of_not_mem INV newname P.i_dirent
            (fun e he hname => habs P hP (List.mem_map.mpr ⟨e, he, hname⟩))
        rw [htarget] at hr
        simp only [renameDropTarget, ne_eq, not_true_eq_false, if_false] at hr
        cases hr
        apply linkCountInv_modify _ _ _ hs
        intro d hd hdir
        show d.st_nlink = (2 + subdirCount (dirRenameFrom _ newname d.i_dirent)) % 2 ^ 64
        rw [subdirCount_dirRenameFrom]
        exact hs parent d hd hdir

theorem linkCountInv_of_typedReachable (INV : Nat) (s : fs) (h : typedReachable INV s) :
    linkCountInv s := by
  induction h with
  | init s h0 =>
    intro k d hk hdir
    obtain ⟨hnil, hn⟩ := h0 k d hk
    rw [hnil, hn hdir]
    rfl
  | create s s' newino parent name mode err _ _ hop ih =>
    exact linkCountInv_create s s' newino parent name mode err ih hop
  | link s s' ino newparent newname err _ hop ih =>
    exact linkCountInv_link s s' ino newparent newname err ih hop
  | unlink s s' parent name err _ hcond hop ih =>
    exact linkCountInv_unlink INV s s' parent name err ih hcond hop
  | rmdir s s' parent name err _ hcond hop ih =>
    exact linkCountInv_rmdir INV s s' parent name err ih hcond hop
  | rename s s' parent name newname err _ habs hop ih =>
    exact linkCountInv_rename_same_dir INV s s' parent name newname err ih habs hop

/-- C28, evaluated on the code (with `DFS_INVALID_INODE = 0`): `fsMkdirB` is reached
from the empty root by `mkdir a` and `mkdir b`, and the invariant holds in it (the root
has the link count 4 and two entries of directory type).  Renaming the directory `a`
onto the empty directory `b` replies success and leaves the root with the link count 4
and the one entry `b -> 2`; the replaced directory 3 is left with the link count 1 and is
not flagged removed.  The invariant no longer holds. -/
theorem C28_rename_over_directory :
    createReachable fsMkdirB ∧ linkCountInv fsMkdirB ∧
      ∃ s' R B, dfs_rename 0 fsMkdirB 1 "a" 1 "b" = some (0, s') ∧
        s' 1 = some R ∧ R.st_nlink = 4 ∧ R.i_dirent = [⟨2, "b", 1, S_IFDIR⟩] ∧
        subdirCount R.i_dirent = 1 ∧
        s' 3 = some B ∧ B.st_nlink = 1 ∧ B.i_removed = false ∧
        ¬ linkCountInv s' := by
  have hreach : createReachable fsMkdirB :=
    createReachable.step fsMkdirA fsMkdirB 3 1 "b" S_IFDIR
      (createReachable.step rootFs fsMkdirA 2 1 "a" S_IFDIR createReachable_rootFs rfl rfl)
      rfl rfl
  refine ⟨hreach, linkCountInv_of_createReachable _ hreach, _, _, _, rfl, rfl, rfl,
    by decide, by decide, rfl, rfl, rfl, ?_⟩
  intro hinv
  have h := hinv 1 _ rfl (by decide)
  revert h
  decide

/-- Where the invariant is kept: assuming a newly initialised directory has the link
count 2, the invariant that every directory has the link count 2 plus the number of its
entries of directory type (in `nlink_t` arithmetic, and exactly while that number is
below 2^64) is preserved by create/mkdir, by link, by unlink of a name whose entry and
inode are not directories, by rmdir of a name whose entry is of directory type, and by
rename within one directory to a name that has no entry in it; hence it holds in every
state reached by these operations from freshly initialised inodes. -/
theorem linkCountInv_preserved (DFS_INVALID_INODE : Nat) :
    (∀ s, linkCountInv s →
      (∀ newino parent name mode err s',
        create s newino parent name mode = some (err, s') → linkCountInv s') ∧
      (∀ ino newparent newname err s',
        dfs_link s ino newparent newname = some (err, s') → linkCountInv s') ∧
      (∀ parent name err s', removesNonDir DFS_INVALID_INODE s parent name →
        dfs_remove DFS_INVALID_INODE s parent name false = some (err, s') →
          linkCountInv s') ∧
      (∀ parent name err s', removesDir s parent name →
        dfs_remove DFS_INVALID_INODE s parent name true = some (err, s') →
          linkCountInv s') ∧
      (∀ parent name newname err s', nameAbsent s parent newname →
        dfs_rename DFS_INVALID_INODE s parent name parent newname = some (err, s') →
          linkCountInv s')) ∧
      (∀ s, typedReachable DFS_INVALID_INODE s → ∀ k d, s k = some d →
        S_ISDIR d.st_mode = true →
        d.st_nlink = (2 + subdirCount d.i_dirent) % 2 ^ 64 ∧
          (2 + subdirCount d.i_dirent < 2 ^ 64 →
            d.st_nlink = 2 + subdirCount d.i_dirent)) := by
  refine ⟨fun s hs => ⟨?_, ?_, ?_, ?_, ?_⟩, ?_⟩
  · intro newino parent name mode err s' hr
    exact linkCountInv_create s s' newino parent name mode err hs hr
  · intro ino newparent newname err s' hr
    exact linkCountInv_link s s' ino newparent newname err hs hr
  · intro parent name err s' hcond hr
    exact linkCountInv_unlink DFS_INVALID_INODE s s' parent name err hs hcond hr
  · intro parent name err s' hcond hr
    exact linkCountInv_rmdir DFS_INVALID_INODE s s' parent name err hs hcond hr
  · intro parent name newname err s' habs hr
    exact linkCountInv_rename_same_dir DFS_INVALID_INODE s s' parent name newname err hs
      habs hr
  · intro s hreach k d hk hdir
    have h := linkCountInv_of_typedReachable DFS_INVALID_INODE s hreach k d hk hdir
    refine ⟨h, fun hlt => ?_⟩
    rw [h]
    exact Nat.mod_eq_of_lt hlt

/-- After `mkdir a` and `mkdir a/c` from the empty root, directory 2 has the link
count 3, two plus its one entry of directory type. -/
theorem linkCountInv_preserved_example :
    ∃ d, fsMkdirC 2 = some d ∧ S_ISDIR d.st_mode = true ∧ d.st_nlink = 3 ∧
      d.st_nlink = (2 + subdirCount d.i_dirent) % 2 ^ 64 :=
  ⟨_, rfl, by decide, rfl,
    ((linkCountInv_preserved 0).2 fsMkdirC
      (typedReachable.create fsMkdirA fsMkdirC 3 2 "c" S_IFDIR 0
        (typedReachable.create rootFs fsMkdirA 2 1 "a" S_IFDIR 0
          (typedReachable.init rootFs (by
            intro k i hk
            unfold rootFs at hk
            split at hk
            · cases hk
              exact ⟨rfl, fun _ => rfl⟩
            · cases hk)) rfl rfl) rfl rfl) 2 _ rfl (by decide)).1⟩

end Lcfs
